import Mathlib

/-!
Verification of the Minesweeper AI knowledge-base engine (src/minesweeper.py).

The embedding below translates the Python source faithfully:
cells are integer pairs, a Sentence is a finite set of cells with an
integer count, and the MinesweeperAI state carries the board dimensions,
the moves made, the confirmed mine and safe sets, and the ordered list of
sentences.  The inference fixed-point loop of add_knowledge is embedded
with explicit fuel because the Python loop iterates over a list that
grows while it is being traversed, and (as proved below) it does not
terminate on all states.
-/

/- Board coordinates: Python tuples of ints. -/
abbrev Cell := ℤ × ℤ

/- A logical statement about the game: a set of board cells and a count of
the number of those cells which are mines (class Sentence, lines 87-143).
Python's int can be negative, hence count lives in ℤ.  Structural equality
of Python Sentences (cells and count) is DecidableEq here. -/
structure Sentence where
  cells : Finset Cell
  count : ℤ
deriving DecidableEq

namespace Sentence

/- Sentence.known_mines (lines 104-115): if there are as many mines as
there are cells (and the count is not zero), all cells contain a mine. -/
def known_mines (s : Sentence) : Finset Cell :=
  if (s.cells.card : ℤ) = s.count ∧ s.count ≠ 0 then s.cells else ∅

/- Sentence.known_safes (lines 117-125): if the count is zero, all cells
are safe. -/
def known_safes (s : Sentence) : Finset Cell :=
  if s.count = 0 then s.cells else ∅

/- Sentence.mark_mine (lines 128-135): if the cell is a member, remove it
and decrement the count. -/
def mark_mine (s : Sentence) (cell : Cell) : Sentence :=
  if cell ∈ s.cells then ⟨s.cells.erase cell, s.count - 1⟩ else s

/- Sentence.mark_safe (lines 137-143): if the cell is a member, remove it;
the count is unchanged. -/
def mark_safe (s : Sentence) (cell : Cell) : Sentence :=
  if cell ∈ s.cells then ⟨s.cells.erase cell, s.count⟩ else s

end Sentence

/- is_subset (lines 148-159): picks the larger cell set by cardinality
(ties go to the second argument as big) and checks that every cell of the
smaller set appears in the larger. -/
def is_subset (s1 s2 : Sentence) : Bool :=
  if s1.cells.card > s2.cells.card then
    decide (s2.cells ⊆ s1.cells)
  else
    decide (s1.cells ⊆ s2.cells)

/- The sentence derived from a subset pair in add_knowledge
(lines 301-316): big and small are chosen by cardinality exactly as in
the source (ties make the first loop variable small), the new cells are
big's cells with each of small's cells removed (which is set difference,
as the guard guarantees small is contained in big), and the new count is
big.count - small.count. -/
def derivedSentence (s1 s2 : Sentence) : Sentence :=
  if s1.cells.card > s2.cells.card then
    ⟨s1.cells \ s2.cells, s1.count - s2.count⟩
  else
    ⟨s2.cells \ s1.cells, s2.count - s1.count⟩

/- The state of class MinesweeperAI (lines 166-185). -/
structure AI where
  height : ℤ
  width : ℤ
  moves_made : Finset Cell
  mines : Finset Cell
  safes : Finset Cell
  knowledge : List Sentence
deriving DecidableEq

namespace AI

/- MinesweeperAI.mark_mine (lines 187-194). -/
def mark_mine (ai : AI) (cell : Cell) : AI :=
  { ai with mines := insert cell ai.mines,
            knowledge := ai.knowledge.map (fun s => s.mark_mine cell) }

/- MinesweeperAI.mark_safe (lines 196-203). -/
def mark_safe (ai : AI) (cell : Cell) : AI :=
  { ai with safes := insert cell ai.safes,
            knowledge := ai.knowledge.map (fun s => s.mark_safe cell) }

/- The in-bounds neighbours scanned by add_knowledge (lines 230-243):
all (i, j) with i in range(row-1, row+2) and j in range(col-1, col+2),
skipping the cell itself and anything out of bounds. -/
def neighborCells (ai : AI) (cell : Cell) : Finset Cell :=
  ((Finset.Icc (cell.1 - 1) (cell.1 + 1)) ×ˢ (Finset.Icc (cell.2 - 1) (cell.2 + 1))).filter
    (fun p => p ≠ cell ∧ 0 ≤ p.1 ∧ p.1 < ai.height ∧ 0 ≤ p.2 ∧ p.2 < ai.width)

/- The first phase of add_knowledge (lines 221-246): record the move,
mark the cell safe, build the new sentence from the undetermined
neighbours, decrementing the count once for every neighbour already
known to be a mine, and append it. -/
def add_knowledge_append (ai : AI) (cell : Cell) (count : ℤ) : AI :=
  let ai1 := { ai with moves_made := insert cell ai.moves_made }
  let ai2 := ai1.mark_safe cell
  let nbrs := ai2.neighborCells cell
  let newCells := nbrs.filter (fun n => n ∉ ai2.mines ∧ n ∉ ai2.safes)
  let newCount := count - ((nbrs.filter (fun n => n ∈ ai2.mines)).card : ℤ)
  { ai2 with knowledge := ai2.knowledge ++ [⟨newCells, newCount⟩] }

/- The union of known_safes over all sentences (lines 263-268). -/
def computeSafes (ai : AI) : Finset Cell :=
  ai.knowledge.foldl (fun acc s => acc ∪ s.known_safes) ∅

/- The union of known_mines over all sentences (lines 264-269). -/
def computeMines (ai : AI) : Finset Cell :=
  ai.knowledge.foldl (fun acc s => acc ∪ s.known_mines) ∅

end AI

/- Marking cells of a set is iterated over the set in unspecified order
in Python; the AI-level marking operations commute across cells, so the
iteration is modelled as a well-defined multiset fold. -/
instance : RightCommutative AI.mark_safe := by
  refine ⟨fun ai c1 c2 => ?_⟩
  have hs : ∀ (s : Sentence) (c : Cell), s.mark_safe c = ⟨s.cells.erase c, s.count⟩ := by
    intro s c
    unfold Sentence.mark_safe
    split_ifs with h
    · rfl
    · cases s with
      | mk cs ct => simp only [Finset.erase_eq_of_not_mem h]
  simp only [AI.mark_safe, List.map_map]
  refine congrArg₂ (fun (a : Finset Cell) (b : List Sentence) =>
    { ai with safes := a, knowledge := b }) (Finset.Insert.comm c2 c1 ai.safes) ?_
  refine List.map_congr_left fun s _ => ?_
  simp only [Function.comp, hs, Finset.erase_right_comm]

instance : RightCommutative AI.mark_mine := by
  refine ⟨fun ai c1 c2 => ?_⟩
  have hs : ∀ (s : Sentence) (c : Cell),
      s.mark_mine c = ⟨s.cells.erase c, if c ∈ s.cells then s.count - 1 else s.count⟩ := by
    intro s c
    unfold Sentence.mark_mine
    split_ifs with h
    · rfl
    · cases s with
      | mk cs ct => simp only [Finset.erase_eq_of_not_mem h]
  simp only [AI.mark_mine, List.map_map]
  refine congrArg₂ (fun (a : Finset Cell) (b : List Sentence) =>
    { ai with mines := a, knowledge := b }) (Finset.Insert.comm c2 c1 ai.mines) ?_
  refine List.map_congr_left fun s _ => ?_
  simp only [Function.comp, hs, Finset.mem_erase, Finset.erase_right_comm]
  rcases eq_or_ne c1 c2 with h | h
  · subst h; rfl
  · congr 1
    by_cases h1 : c1 ∈ s.cells <;> by_cases h2 : c2 ∈ s.cells <;>
      simp [h1, h2, h, Ne.symm h]

namespace AI

/- Marking every cell of a set safe (lines 272-275). -/
def markSafes (ai : AI) (cs : Finset Cell) : AI :=
  Multiset.foldl AI.mark_safe ai cs.val

/- Marking every cell of a set as a mine (lines 276-279). -/
def markMines (ai : AI) (cs : Finset Cell) : AI :=
  Multiset.foldl AI.mark_mine ai cs.val

end AI

/- The pairwise subset-inference loop of add_knowledge (lines 293-319).
Python iterates over self.knowledge with nested for loops while appending
to the very same list, so both iterations see sentences appended during
the pass; this is a pair of index-driven loops over a growing list.  The
fuel argument pays one unit per executed loop step; the loop genuinely
fails to terminate on some inputs, which is why fuel is needed. -/
def pairLoop : ℕ → List Sentence → ℕ → ℕ → Bool → Option (List Sentence × Bool)
  | 0, _, _, _, _ => none
  | fuel + 1, k, i, j, ch =>
    if i < k.length then
      if j < k.length then
        if (k.getD j ⟨∅, 0⟩).cells = (k.getD i ⟨∅, 0⟩).cells then
          pairLoop fuel k i (j + 1) ch
        else if is_subset (k.getD i ⟨∅, 0⟩) (k.getD j ⟨∅, 0⟩) then
          if derivedSentence (k.getD i ⟨∅, 0⟩) (k.getD j ⟨∅, 0⟩) ∈ k then
            pairLoop fuel k i (j + 1) ch
          else
            pairLoop fuel
              (k ++ [derivedSentence (k.getD i ⟨∅, 0⟩) (k.getD j ⟨∅, 0⟩)]) i (j + 1) true
        else
          pairLoop fuel k i (j + 1) ch
      else
        pairLoop fuel k (i + 1) 0 ch
    else
      some (k, ch)

namespace AI

/- The marking and pruning prefix of one iteration of the while loop of
add_knowledge (lines 259-291): compute the safe and mine unions from the
current sentences, mark all of them (each marking loop guarded by a
non-emptiness test as in the source), then prune sentences whose cell
set is empty. -/
def passInput (ai : AI) : AI :=
  let safesU := ai.computeSafes
  let minesU := ai.computeMines
  let ai1 := if 0 < safesU.card then ai.markSafes safesU else ai
  let ai2 := if 0 < minesU.card then ai1.markMines minesU else ai1
  { ai2 with knowledge := ai2.knowledge.filter (fun s => s.cells ≠ ∅) }

/- The knowledge_changed flag set by the marking phase (lines 272-279). -/
def passChanged (ai : AI) : Bool :=
  decide (0 < ai.computeSafes.card) || decide (0 < ai.computeMines.card)

/- One iteration of the while loop of add_knowledge (lines 259-319):
mark, prune, then run the pairwise inference loop.  Returns none if the
fuel for the pair loop runs out. -/
def runPass (pf : ℕ) (ai : AI) : Option (AI × Bool) :=
  match pairLoop pf (ai.passInput).knowledge 0 0 ai.passChanged with
  | none => none
  | some (L, ch') => some ({ ai.passInput with knowledge := L }, ch')

/- The while knowledge_changed loop (lines 257-319): the body always runs
at least once; the loop exits when a full pass reports no change.  The
first fuel bounds the number of passes, the second is handed to the pair
loop of each pass. -/
def loopKnowledge : ℕ → ℕ → AI → Option AI
  | 0, _, _ => none
  | n + 1, pf, ai =>
    match ai.runPass pf with
    | none => none
    | some (ai', true) => loopKnowledge n pf ai'
    | some (ai', false) => some ai'

/- MinesweeperAI.add_knowledge (lines 205-319), with fuel. -/
def add_knowledge (n pf : ℕ) (ai : AI) (cell : Cell) (count : ℤ) : Option AI :=
  loopKnowledge n pf (ai.add_knowledge_append cell count)

/- MinesweeperAI.make_random_move (lines 340-356): repeatedly draw a
random in-bounds cell and return it unless it is a known mine or an
already-made move.  The random stream is passed explicitly; fuel bounds
the number of draws, and none models the loop failing to return. -/
def make_random_move : (ℕ → Cell) → ℕ → ℕ → AI → Option Cell
  | _, _, 0, _ => none
  | rnd, t, fuel + 1, ai =>
    let cords := rnd t
    if cords ∈ ai.mines ∨ cords ∈ ai.moves_made then
      make_random_move rnd (t + 1) fuel ai
    else
      some cords

end AI

/- The claim-side reading of the neighbourhood: Chebyshev distance
exactly 1, i.e. both coordinate offsets are at most 1 and the cells
differ.  This definition transcribes the words of the specification and
is compared against the source-derived neighborCells below. -/
def chebyshevOne (p q : Cell) : Prop :=
  p ≠ q ∧ (p.1 - q.1).natAbs ≤ 1 ∧ (p.2 - q.2).natAbs ≤ 1

instance (p q : Cell) : Decidable (chebyshevOne p q) := by
  unfold chebyshevOne; infer_instance

/- The claim-side set of all board cells of an AI. -/
def AI.boardCells (ai : AI) : Finset Cell :=
  Finset.Icc 0 (ai.height - 1) ×ˢ Finset.Icc 0 (ai.width - 1)

/- A sentence is sound for a mine set M when its count is the exact
number of M-mines among its cells.  This is the semantic invariant that
holds when observations come from an actual board with mine set M. -/
def soundFor (M : Finset Cell) (s : Sentence) : Prop :=
  s.count = ((s.cells ∩ M).card : ℤ)

/- A knowledge-base state is sound for a mine set M when every sentence
is sound, no confirmed safe cell is in M, and every confirmed mine is. -/
def AI.SoundState (M : Finset Cell) (ai : AI) : Prop :=
  (∀ s ∈ ai.knowledge, soundFor M s) ∧ ai.safes ∩ M = ∅ ∧ ai.mines ⊆ M

/- All cells mentioned by any sentence of a list. -/
def activeCells (k : List Sentence) : Finset Cell :=
  k.foldr (fun s acc => s.cells ∪ acc) ∅

/- The number of non-empty subsets of U whose sound sentence for M is
absent from the list; the strictly-decreasing part of the pair-loop
termination measure on sound states. -/
def absentCount (U M : Finset Cell) (k : List Sentence) : ℕ :=
  (U.powerset.filter
    (fun S => S.Nonempty ∧ (⟨S, ((S ∩ M).card : ℤ)⟩ : Sentence) ∉ k)).card

/- A processed index pair of the pair loop: either the cell sets agree
(the continue branch), or the subset test fails, or the derived sentence
is already present in the list. -/
def OKidx (k : List Sentence) (p q : ℕ) : Prop :=
  (k.getD q ⟨∅, 0⟩).cells = (k.getD p ⟨∅, 0⟩).cells ∨
  is_subset (k.getD p ⟨∅, 0⟩) (k.getD q ⟨∅, 0⟩) = false ∨
  derivedSentence (k.getD p ⟨∅, 0⟩) (k.getD q ⟨∅, 0⟩) ∈ k

/- The loop invariant of the pair loop at position (i, j): all pairs of
already-finished rows are processed, as is the prefix of the current
row. -/
def PairPre (k : List Sentence) (i j : ℕ) : Prop :=
  (∀ p q, p < i → q < i → p < k.length → q < k.length → OKidx k p q) ∧
  (∀ q, q < j → i < k.length → q < k.length → OKidx k i q)

/- The relation between a pair-loop input list and its output: the input
is kept as a prefix, new sentences are pairwise distinct, absent from the
input, and each is derived from a strict-subset pair of sentences of the
output by subtracting cells and counts. -/
def goodExt (k0 k : List Sentence) : Prop :=
  ∃ news, k = k0 ++ news ∧ news.Nodup ∧ (∀ n ∈ news, n ∉ k0) ∧
    ∀ n ∈ news, ∃ s t, s ∈ k ∧ t ∈ k ∧ s.cells ⊂ t.cells ∧
      n = ⟨t.cells \ s.cells, t.count - s.count⟩

/- An inconsistent knowledge-base state: the two-cell set {(0,0),(0,1)}
is asserted to hold 10 and also 20 mines, and {(0,0)} to hold 5.  No
single mine assignment satisfies these, and the subset-inference loop
below runs away on them. -/
def sentA : Sentence := ⟨{((0:ℤ), (0:ℤ)), ((0:ℤ), (1:ℤ))}, 10⟩

def sentB : Sentence := ⟨{((0:ℤ), (0:ℤ)), ((0:ℤ), (1:ℤ))}, 20⟩

def sentC : Sentence := ⟨{((0:ℤ), (0:ℤ))}, 5⟩

/- The observation sentence appended by the call below: the neighbours
of (0,5) on the 1x9 board, inert with respect to sentA, sentB, sentC. -/
def sentD : Sentence := ⟨{((0:ℤ), (4:ℤ)), ((0:ℤ), (6:ℤ))}, 4⟩

def aiBad : AI := ⟨1, 9, ∅, ∅, ∅, [sentA, sentB, sentC]⟩

/- aiBad after the append phase of add_knowledge((0,5), 4). -/
def aiBad1 : AI := ⟨1, 9, {((0:ℤ), (5:ℤ))}, ∅, {((0:ℤ), (5:ℤ))}, [sentA, sentB, sentC, sentD]⟩

/- DEFINITIONS-REGION-END -/

/- mark_safe always erases the cell and keeps the count: erasing an
absent cell is the identity. -/
theorem Sentence.mark_safe_eq (s : Sentence) (c : Cell) :
    s.mark_safe c = ⟨s.cells.erase c, s.count⟩ := by
  unfold Sentence.mark_safe
  split_ifs with h
  · rfl
  · cases s with
    | mk cs ct => simp only [Finset.erase_eq_of_not_mem h]

/- mark_mine erases the cell and decrements the count exactly when the
cell was a member. -/
theorem Sentence.mark_mine_eq (s : Sentence) (c : Cell) :
    s.mark_mine c = ⟨s.cells.erase c, if c ∈ s.cells then s.count - 1 else s.count⟩ := by
  unfold Sentence.mark_mine
  split_ifs with h
  · rfl
  · cases s with
    | mk cs ct => simp only [Finset.erase_eq_of_not_mem h]

/- Projection lemmas for the AI marking operations. -/

@[simp] theorem AI.mark_safe_height (ai : AI) (c : Cell) : (ai.mark_safe c).height = ai.height := rfl

@[simp] theorem AI.mark_safe_width (ai : AI) (c : Cell) : (ai.mark_safe c).width = ai.width := rfl

@[simp] theorem AI.mark_safe_moves (ai : AI) (c : Cell) : (ai.mark_safe c).moves_made = ai.moves_made := rfl

@[simp] theorem AI.mark_safe_mines (ai : AI) (c : Cell) : (ai.mark_safe c).mines = ai.mines := rfl

@[simp] theorem AI.mark_safe_safes (ai : AI) (c : Cell) : (ai.mark_safe c).safes = insert c ai.safes := rfl

@[simp] theorem AI.mark_safe_knowledge (ai : AI) (c : Cell) :
    (ai.mark_safe c).knowledge = ai.knowledge.map (fun s => s.mark_safe c) := rfl

@[simp] theorem AI.mark_mine_height (ai : AI) (c : Cell) : (ai.mark_mine c).height = ai.height := rfl

@[simp] theorem AI.mark_mine_width (ai : AI) (c : Cell) : (ai.mark_mine c).width = ai.width := rfl

@[simp] theorem AI.mark_mine_moves (ai : AI) (c : Cell) : (ai.mark_mine c).moves_made = ai.moves_made := rfl

@[simp] theorem AI.mark_mine_mines (ai : AI) (c : Cell) : (ai.mark_mine c).mines = insert c ai.mines := rfl

@[simp] theorem AI.mark_mine_safes (ai : AI) (c : Cell) : (ai.mark_mine c).safes = ai.safes := rfl

@[simp] theorem AI.mark_mine_knowledge (ai : AI) (c : Cell) :
    (ai.mark_mine c).knowledge = ai.knowledge.map (fun s => s.mark_mine c) := rfl

/- The source's neighbour scan produces exactly the in-bounds cells at
Chebyshev distance 1. -/
theorem AI.neighborCells_eq (ai : AI) (cell : Cell) :
    ai.neighborCells cell = ai.boardCells.filter (fun p => chebyshevOne p cell) := by
  unfold AI.neighborCells AI.boardCells chebyshevOne
  ext p
  simp only [Finset.mem_filter, Finset.mem_product, Finset.mem_Icc]
  constructor
  · rintro ⟨⟨h1, h2⟩, hne, hb1, hb2, hb3, hb4⟩
    exact ⟨⟨⟨hb1, by omega⟩, ⟨hb3, by omega⟩⟩, hne, by omega, by omega⟩
  · rintro ⟨⟨⟨ha1, ha2⟩, hb1, hb2⟩, hne, hc1, hc2⟩
    exact ⟨⟨by omega, by omega⟩, hne, ha1, by omega, hb1, by omega⟩

/-- C3: for every call add_knowledge(cell, count), the sentence appended
before the inference loop has cell set equal to the in-bounds cells at
Chebyshev distance 1 from cell (excluding cell itself) that are neither
confirmed mines nor confirmed safes, and its count equals the given
count minus the number of those in-bounds neighbours already confirmed
as mines; cell itself is added to moves_made and marked safe first (so
the excluded safes are those after marking cell). -/
theorem C3_append_sentence (ai : AI) (cell : Cell) (count : ℤ) :
    (ai.add_knowledge_append cell count).moves_made = insert cell ai.moves_made ∧
    (ai.add_knowledge_append cell count).safes = insert cell ai.safes ∧
    (ai.add_knowledge_append cell count).mines = ai.mines ∧
    (ai.add_knowledge_append cell count).knowledge =
      (ai.knowledge.map (fun s => s.mark_safe cell)) ++
        [⟨ai.boardCells.filter
            (fun p => chebyshevOne p cell ∧ p ∉ ai.mines ∧ p ∉ insert cell ai.safes),
          count - ((ai.boardCells.filter
            (fun p => chebyshevOne p cell ∧ p ∈ ai.mines)).card : ℤ)⟩] := by
  refine ⟨rfl, rfl, rfl, ?_⟩
  unfold AI.add_knowledge_append
  simp only [AI.mark_safe_knowledge, AI.mark_safe_safes, AI.mark_safe_mines]
  congr 1
  refine congrArg (fun x => [x]) ?_
  have h1 : (ai.neighborCells cell).filter
        (fun n => n ∉ ai.mines ∧ n ∉ insert cell ai.safes) =
      ai.boardCells.filter
        (fun p => chebyshevOne p cell ∧ p ∉ ai.mines ∧ p ∉ insert cell ai.safes) := by
    rw [AI.neighborCells_eq, Finset.filter_filter]
  have h2 : (ai.neighborCells cell).filter (fun n => n ∈ ai.mines) =
      ai.boardCells.filter (fun p => chebyshevOne p cell ∧ p ∈ ai.mines) := by
    rw [AI.neighborCells_eq, Finset.filter_filter]
  have hn : (({ ai with moves_made := insert cell ai.moves_made } : AI).mark_safe
      cell).neighborCells cell = ai.neighborCells cell := rfl
  rw [hn, h1, h2]

/-- C4: known_mines returns the full cell set when the count equals the
number of cells and is strictly positive, and the empty set in every
other case (including the vacuous sentence). -/
theorem C4_known_mines (s : Sentence) :
    ((s.count = (s.cells.card : ℤ) ∧ 0 < s.count) → s.known_mines = s.cells) ∧
    (¬(s.count = (s.cells.card : ℤ) ∧ 0 < s.count) → s.known_mines = ∅) := by
  unfold Sentence.known_mines
  constructor
  · rintro ⟨h1, h2⟩
    rw [if_pos ⟨h1.symm, by omega⟩]
  · intro h
    rw [if_neg]
    rintro ⟨h1, h2⟩
    exact h ⟨h1.symm, by omega⟩

/-- Witness for C4: a one-cell count-one sentence yields its cell, and
the vacuous sentence yields nothing. -/
theorem C4_known_mines_witness :
    Sentence.known_mines ⟨{((0:ℤ), (0:ℤ))}, 1⟩ = {((0:ℤ), (0:ℤ))} ∧
    Sentence.known_mines ⟨∅, 0⟩ = ∅ :=
  ⟨(C4_known_mines _).1 (by decide), (C4_known_mines _).2 (by decide)⟩

/-- C5: known_safes returns the full cell set when the count is zero and
the empty set for every sentence with positive count. -/
theorem C5_known_safes (s : Sentence) :
    (s.count = 0 → s.known_safes = s.cells) ∧ (0 < s.count → s.known_safes = ∅) := by
  unfold Sentence.known_safes
  exact ⟨fun h => if_pos h, fun h => if_neg (by omega)⟩

/-- Witness for C5 at a count-zero and a count-two sentence. -/
theorem C5_known_safes_witness :
    Sentence.known_safes ⟨{((0:ℤ), (0:ℤ))}, 0⟩ = {((0:ℤ), (0:ℤ))} ∧
    Sentence.known_safes ⟨{((0:ℤ), (0:ℤ))}, 2⟩ = ∅ :=
  ⟨(C5_known_safes _).1 (by decide), (C5_known_safes _).2 (by decide)⟩

/-- C6 counterexample: the sentence with cells {(0,0)} and count 1 has
its count in [0, |cells|], yet after mark_safe((0,0)) the count 1
exceeds the new cell count 0, so the claimed preservation fails. -/
theorem C6_counterexample :
    0 ≤ (Sentence.mk {((0:ℤ), (0:ℤ))} 1).count ∧
    (Sentence.mk {((0:ℤ), (0:ℤ))} 1).count ≤
      (((Sentence.mk {((0:ℤ), (0:ℤ))} 1).cells.card : ℤ)) ∧
    ¬(((Sentence.mk {((0:ℤ), (0:ℤ))} 1).mark_safe ((0:ℤ), (0:ℤ))).count ≤
        ((((Sentence.mk {((0:ℤ), (0:ℤ))} 1).mark_safe ((0:ℤ), (0:ℤ))).cells.card : ℤ))) := by
  decide

/-- C6 amended: a sentence whose count lies in [0, |cells|] keeps its
count in [0, |cells|] after mark_mine(cell) provided the cell is absent
or the count is at least 1, and after mark_safe(cell) provided the cell
is absent or the count is strictly below the number of cells. -/
theorem C6_amended (s : Sentence) (c : Cell)
    (h0 : 0 ≤ s.count) (h1 : s.count ≤ (s.cells.card : ℤ)) :
    ((c ∈ s.cells → 1 ≤ s.count) →
      0 ≤ (s.mark_mine c).count ∧ (s.mark_mine c).count ≤ ((s.mark_mine c).cells.card : ℤ)) ∧
    ((c ∈ s.cells → s.count < (s.cells.card : ℤ)) →
      0 ≤ (s.mark_safe c).count ∧ (s.mark_safe c).count ≤ ((s.mark_safe c).cells.card : ℤ)) := by
  constructor
  · intro hm
    unfold Sentence.mark_mine
    split_ifs with hc
    · have hb := hm hc
      have hcard : (s.cells.erase c).card = s.cells.card - 1 := Finset.card_erase_of_mem hc
      have hpos : 0 < s.cells.card := Finset.card_pos.mpr ⟨c, hc⟩
      simp only [hcard]
      constructor <;> [omega; omega]
    · exact ⟨h0, h1⟩
  · intro hm
    unfold Sentence.mark_safe
    split_ifs with hc
    · have hb := hm hc
      have hcard : (s.cells.erase c).card = s.cells.card - 1 := Finset.card_erase_of_mem hc
      have hpos : 0 < s.cells.card := Finset.card_pos.mpr ⟨c, hc⟩
      simp only [hcard]
      constructor <;> [omega; omega]
    · exact ⟨h0, h1⟩

/-- Witness for C6 amended: marking a cell absent from the sentence. -/
theorem C6_amended_witness :
    (0 ≤ ((Sentence.mk {((0:ℤ), (0:ℤ))} 1).mark_mine ((5:ℤ), (5:ℤ))).count ∧
      ((Sentence.mk {((0:ℤ), (0:ℤ))} 1).mark_mine ((5:ℤ), (5:ℤ))).count ≤
        ((((Sentence.mk {((0:ℤ), (0:ℤ))} 1).mark_mine ((5:ℤ), (5:ℤ))).cells.card : ℤ))) ∧
    (0 ≤ ((Sentence.mk {((0:ℤ), (0:ℤ))} 1).mark_safe ((5:ℤ), (5:ℤ))).count ∧
      ((Sentence.mk {((0:ℤ), (0:ℤ))} 1).mark_safe ((5:ℤ), (5:ℤ))).count ≤
        ((((Sentence.mk {((0:ℤ), (0:ℤ))} 1).mark_safe ((5:ℤ), (5:ℤ))).cells.card : ℤ))) :=
  ⟨(C6_amended _ _ (by decide) (by decide)).1 (by decide),
   (C6_amended _ _ (by decide) (by decide)).2 (by decide)⟩

/-- C10: is_subset is symmetric in its two arguments, it is true exactly
when the cell set of smaller (or equal) cardinality is contained in the
other, and a true result does not imply containment in the argument
order given. -/
theorem C10_is_subset_symm :
    (∀ s1 s2 : Sentence, is_subset s1 s2 = is_subset s2 s1) ∧
    (∀ s1 s2 : Sentence, is_subset s1 s2 = true ↔
      (if s1.cells.card ≤ s2.cells.card then s1.cells ⊆ s2.cells else s2.cells ⊆ s1.cells)) ∧
    (∃ s1 s2 : Sentence, is_subset s1 s2 = true ∧ ¬s1.cells ⊆ s2.cells) := by
  refine ⟨?_, ?_, ⟨⟨{((0:ℤ), (0:ℤ)), ((0:ℤ), (1:ℤ))}, 0⟩, ⟨{((0:ℤ), (0:ℤ))}, 0⟩,
    by decide, by decide⟩⟩
  · intro s1 s2
    unfold is_subset
    rcases lt_trichotomy s1.cells.card s2.cells.card with h | h | h
    · rw [if_neg (by omega), if_pos (by omega)]
    · rw [if_neg (by omega), if_neg (by omega), decide_eq_decide]
      constructor
      · intro hsub
        have heq := Finset.eq_of_subset_of_card_le hsub (le_of_eq h.symm)
        rw [heq]
      · intro hsub
        have heq := Finset.eq_of_subset_of_card_le hsub (le_of_eq h)
        rw [heq]
    · rw [if_pos (by omega), if_neg (by omega)]
  · intro s1 s2
    unfold is_subset
    by_cases h : s1.cells.card ≤ s2.cells.card
    · rw [if_neg (by omega)]
      simp only [h, if_true, decide_eq_true_eq]
    · rw [if_pos (by omega)]
      simp only [h, if_false, decide_eq_true_eq]

/-- Witness for C10: symmetry evaluated on a concrete unordered pair
whose containment only holds in one direction. -/
theorem C10_is_subset_symm_witness :
    is_subset ⟨{((0:ℤ), (0:ℤ)), ((0:ℤ), (1:ℤ))}, 0⟩ ⟨{((0:ℤ), (0:ℤ))}, 0⟩ =
      is_subset ⟨{((0:ℤ), (0:ℤ))}, 0⟩ ⟨{((0:ℤ), (0:ℤ)), ((0:ℤ), (1:ℤ))}, 0⟩ :=
  C10_is_subset_symm.1 _ _

/- is_subset is symmetric: the big and small sets are chosen by size,
not by argument order, and for equal sizes containment forces
equality. -/
theorem is_subset_comm (s1 s2 : Sentence) : is_subset s1 s2 = is_subset s2 s1 := by
  unfold is_subset
  rcases lt_trichotomy s1.cells.card s2.cells.card with h | h | h
  · rw [if_neg (by omega), if_pos (by omega)]
  · rw [if_neg (by omega), if_neg (by omega), decide_eq_decide]
    constructor
    · intro hsub
      have heq := Finset.eq_of_subset_of_card_le hsub (le_of_eq h.symm)
      rw [heq]
    · intro hsub
      have heq := Finset.eq_of_subset_of_card_le hsub (le_of_eq h)
      rw [heq]
  · rw [if_pos (by omega), if_neg (by omega)]

/- is_subset holds exactly when the smaller-or-equal-cardinality cell
set is contained in the other. -/
theorem is_subset_true_iff (s1 s2 : Sentence) :
    is_subset s1 s2 = true ↔
      (if s1.cells.card ≤ s2.cells.card then s1.cells ⊆ s2.cells else s2.cells ⊆ s1.cells) := by
  unfold is_subset
  by_cases h : s1.cells.card ≤ s2.cells.card
  · rw [if_neg (by omega)]
    simp only [h, if_true, decide_eq_true_eq]
  · rw [if_pos (by omega)]
    simp only [h, if_false, decide_eq_true_eq]

/- A successful subset test between sentences of equal cardinality means
the cell sets are equal. -/
theorem is_subset_cells_eq (s t : Sentence) (hc : s.cells.card = t.cells.card)
    (h : is_subset s t = true) : s.cells = t.cells := by
  rw [is_subset_true_iff, if_pos (le_of_eq hc)] at h
  exact Finset.eq_of_subset_of_card_le h (le_of_eq hc.symm)

/- derivedSentence ignores argument order when the cardinalities differ. -/
theorem derivedSentence_comm (s t : Sentence) (h : s.cells.card ≠ t.cells.card) :
    derivedSentence s t = derivedSentence t s := by
  unfold derivedSentence
  rcases h.lt_or_lt with hlt | hlt
  · rw [if_neg (by omega), if_pos (by omega)]
  · rw [if_pos (by omega), if_neg (by omega)]

/- On a producing pair (unequal cell sets, successful subset test) the
derived sentence subtracts the strictly smaller sentence from the
strictly larger one. -/
theorem derivedSentence_spec (s t : Sentence) (hne : s.cells ≠ t.cells)
    (hsub : is_subset s t = true) :
    ∃ a b : Sentence, (a = s ∧ b = t ∨ a = t ∧ b = s) ∧ a.cells ⊂ b.cells ∧
      derivedSentence s t = ⟨b.cells \ a.cells, b.count - a.count⟩ := by
  by_cases h : s.cells.card > t.cells.card
  · refine ⟨t, s, Or.inr ⟨rfl, rfl⟩, ?_, ?_⟩
    · rw [is_subset_true_iff, if_neg (by omega)] at hsub
      exact lt_of_le_of_ne hsub (fun hh => hne hh.symm)
    · unfold derivedSentence
      rw [if_pos h]
  · refine ⟨s, t, Or.inl ⟨rfl, rfl⟩, ?_, ?_⟩
    · rw [is_subset_true_iff, if_pos (by omega)] at hsub
      exact lt_of_le_of_ne hsub hne
    · unfold derivedSentence
      rw [if_neg h]

/- List indexing with the default sentence, inside bounds. -/
theorem getD_mem (k : List Sentence) (i : ℕ) (h : i < k.length) :
    k.getD i ⟨∅, 0⟩ ∈ k := by
  rw [List.getD_eq_getElem _ _ h]
  exact List.getElem_mem h

theorem getD_append (k l : List Sentence) (i : ℕ) (h : i < k.length) :
    (k ++ l).getD i ⟨∅, 0⟩ = k.getD i ⟨∅, 0⟩ := by
  have h2 : i < (k ++ l).length := by
    rw [List.length_append]; omega
  rw [List.getD_eq_getElem _ _ h2, List.getD_eq_getElem _ _ h]
  exact List.getElem_append_left h

theorem goodExt_refl (k : List Sentence) : goodExt k k :=
  ⟨[], (List.append_nil k).symm, List.nodup_nil,
   fun n h => absurd h (List.not_mem_nil n),
   fun n h => absurd h (List.not_mem_nil n)⟩

/- Appending a derived sentence that is not yet present preserves the
goodExt relation. -/
theorem goodExt_snoc (k0 k : List Sentence) (ns : Sentence) (h : goodExt k0 k)
    (hns : ns ∉ k) (s t : Sentence) (hs : s ∈ k) (ht : t ∈ k) (hsub : s.cells ⊂ t.cells)
    (heq : ns = ⟨t.cells \ s.cells, t.count - s.count⟩) : goodExt k0 (k ++ [ns]) := by
  obtain ⟨news, hk, hnd, hdisj, hprov⟩ := h
  refine ⟨news ++ [ns], by rw [hk, List.append_assoc], ?_, ?_, ?_⟩
  · rw [List.nodup_append]
    refine ⟨hnd, List.nodup_singleton ns, ?_⟩
    intro a ha hb
    rw [List.mem_singleton] at hb
    subst hb
    apply hns
    rw [hk]
    exact List.mem_append_right k0 ha
  · intro n hn
    rcases List.mem_append.mp hn with h1 | h1
    · exact hdisj n h1
    · rw [List.mem_singleton] at h1
      subst h1
      intro hc
      apply hns
      rw [hk]
      exact List.mem_append_left news hc
  · intro n hn
    rcases List.mem_append.mp hn with h1 | h1
    · obtain ⟨a, b, ha, hb, hab, habe⟩ := hprov n h1
      exact ⟨a, b, List.mem_append_left _ ha, List.mem_append_left _ hb, hab, habe⟩
    · rw [List.mem_singleton] at h1
      subst h1
      exact ⟨s, t, List.mem_append_left _ hs, List.mem_append_left _ ht, hsub, heq⟩

/- The pair loop only ever appends fresh derived sentences: its output
is goodExt-related to its input. -/
theorem pairLoop_goodExt : ∀ (fuel : ℕ) (k : List Sentence) (i j : ℕ) (ch : Bool)
    (L : List Sentence) (ch' : Bool) (k0 : List Sentence),
    pairLoop fuel k i j ch = some (L, ch') → goodExt k0 k → goodExt k0 L := by
  intro fuel
  induction fuel with
  | zero =>
    intro k i j ch L ch' k0 h hg
    simp [pairLoop] at h
  | succ n ih =>
    intro k i j ch L ch' k0 h hg
    rw [pairLoop] at h
    by_cases hi : i < k.length
    · rw [if_pos hi] at h
      by_cases hj : j < k.length
      · rw [if_pos hj] at h
        by_cases hcell : (k.getD j ⟨∅, 0⟩).cells = (k.getD i ⟨∅, 0⟩).cells
        · rw [if_pos hcell] at h
          exact ih _ _ _ _ _ _ _ h hg
        · rw [if_neg hcell] at h
          by_cases hsub : is_subset (k.getD i ⟨∅, 0⟩) (k.getD j ⟨∅, 0⟩) = true
          · rw [if_pos hsub] at h
            by_cases hmem : derivedSentence (k.getD i ⟨∅, 0⟩) (k.getD j ⟨∅, 0⟩) ∈ k
            · rw [if_pos hmem] at h
              exact ih _ _ _ _ _ _ _ h hg
            · rw [if_neg hmem] at h
              refine ih _ _ _ _ _ _ _ h ?_
              obtain ⟨a, b, hab, hss, hde⟩ :=
                derivedSentence_spec (k.getD i ⟨∅, 0⟩) (k.getD j ⟨∅, 0⟩)
                  (fun hx => hcell hx.symm) hsub
              rcases hab with ⟨ha, hb⟩ | ⟨ha, hb⟩
              · exact goodExt_snoc k0 k _ hg hmem a b
                  (ha ▸ getD_mem k i hi) (hb ▸ getD_mem k j hj) hss hde
              · exact goodExt_snoc k0 k _ hg hmem a b
                  (ha ▸ getD_mem k j hj) (hb ▸ getD_mem k i hi) hss hde
          · rw [if_neg hsub] at h
            exact ih _ _ _ _ _ _ _ h hg
      · rw [if_neg hj] at h
        exact ih _ _ _ _ _ _ _ h hg
    · rw [if_neg hi] at h
      rw [Option.some_inj, Prod.mk.injEq] at h
      rw [← h.1]
      exact hg

/- OKidx is symmetric: skipping, subset failure and derived membership
are all order-insensitive. -/
theorem OKidx_symm (k : List Sentence) (p q : ℕ) (h : OKidx k p q) : OKidx k q p := by
  unfold OKidx at h ⊢
  rcases h with h | h | h
  · left; exact h.symm
  · right; left; rw [is_subset_comm]; exact h
  · by_cases hcell : (k.getD p ⟨∅, 0⟩).cells = (k.getD q ⟨∅, 0⟩).cells
    · left; exact hcell
    · by_cases hcard : (k.getD q ⟨∅, 0⟩).cells.card = (k.getD p ⟨∅, 0⟩).cells.card
      · right; left
        rcases Bool.eq_false_or_eq_true
            (is_subset (k.getD q ⟨∅, 0⟩) (k.getD p ⟨∅, 0⟩)) with ht | hf
        · exact absurd (is_subset_cells_eq _ _ hcard ht).symm hcell
        · exact hf
      · right; right
        rw [derivedSentence_comm (k.getD q ⟨∅, 0⟩) (k.getD p ⟨∅, 0⟩) hcard]
        exact h

/- OKidx is stable under appending new sentences. -/
theorem OKidx_append (k l : List Sentence) (p q : ℕ) (hp : p < k.length)
    (hq : q < k.length) (h : OKidx k p q) : OKidx (k ++ l) p q := by
  unfold OKidx at h ⊢
  rw [getD_append k l p hp, getD_append k l q hq]
  rcases h with h | h | h
  · left; exact h
  · right; left; exact h
  · right; right; exact List.mem_append_left l h

/- When the pair loop exits on its own, every index pair of the final
list has been processed. -/
theorem pairLoop_closed_aux : ∀ (fuel : ℕ) (k : List Sentence) (i j : ℕ) (ch : Bool)
    (L : List Sentence) (ch' : Bool),
    pairLoop fuel k i j ch = some (L, ch') → PairPre k i j →
    ∀ p q, p < L.length → q < L.length → OKidx L p q := by
  intro fuel
  induction fuel with
  | zero =>
    intro k i j ch L ch' h hpre
    simp [pairLoop] at h
  | succ n ih =>
    intro k i j ch L ch' h hpre
    rw [pairLoop] at h
    by_cases hi : i < k.length
    · rw [if_pos hi] at h
      by_cases hj : j < k.length
      · rw [if_pos hj] at h
        by_cases hcell : (k.getD j ⟨∅, 0⟩).cells = (k.getD i ⟨∅, 0⟩).cells
        · rw [if_pos hcell] at h
          refine ih _ _ _ _ _ _ h ⟨hpre.1, ?_⟩
          intro q' hq' hi' hq'len
          rcases Nat.lt_succ_iff_lt_or_eq.mp hq' with hlt | heq
          · exact hpre.2 q' hlt hi' hq'len
          · subst heq
            left; exact hcell
        · rw [if_neg hcell] at h
          by_cases hsub : is_subset (k.getD i ⟨∅, 0⟩) (k.getD j ⟨∅, 0⟩) = true
          · rw [if_pos hsub] at h
            by_cases hmem : derivedSentence (k.getD i ⟨∅, 0⟩) (k.getD j ⟨∅, 0⟩) ∈ k
            · rw [if_pos hmem] at h
              refine ih _ _ _ _ _ _ h ⟨hpre.1, ?_⟩
              intro q' hq' hi' hq'len
              rcases Nat.lt_succ_iff_lt_or_eq.mp hq' with hlt | heq
              · exact hpre.2 q' hlt hi' hq'len
              · subst heq
                right; right; exact hmem
            · rw [if_neg hmem] at h
              refine ih _ _ _ _ _ _ h ⟨?_, ?_⟩
              · intro p q hpi hqi hp hq
                exact OKidx_append k _ p q (by omega) (by omega)
                  (hpre.1 p q hpi hqi (by omega) (by omega))
              · intro q' hq' hi' hq'len
                rcases Nat.lt_succ_iff_lt_or_eq.mp hq' with hlt | heq
                · exact OKidx_append k _ i q' hi (by omega)
                    (hpre.2 q' hlt hi (by omega))
                · rw [heq]
                  right; right
                  rw [getD_append k _ i hi, getD_append k _ j hj]
                  exact List.mem_append_right k (List.mem_singleton_self _)
          · rw [if_neg hsub] at h
            refine ih _ _ _ _ _ _ h ⟨hpre.1, ?_⟩
            intro q' hq' hi' hq'len
            rcases Nat.lt_succ_iff_lt_or_eq.mp hq' with hlt | heq
            · exact hpre.2 q' hlt hi' hq'len
            · subst heq
              right; left
              simp only [Bool.not_eq_true] at hsub
              exact hsub
      · rw [if_neg hj] at h
        refine ih _ _ _ _ _ _ h ⟨?_, ?_⟩
        · intro p q hpi hqi hp hq
          rcases Nat.lt_succ_iff_lt_or_eq.mp hpi with hpi' | hpi' <;>
            rcases Nat.lt_succ_iff_lt_or_eq.mp hqi with hqi' | hqi'
          · exact hpre.1 p q hpi' hqi' hp hq
          · subst hqi'
            exact OKidx_symm _ _ _ (hpre.2 p (by omega) hq hp)
          · subst hpi'
            exact hpre.2 q (by omega) hp hq
          · subst hpi'; subst hqi'
            left; rfl
        · intro q' hq'
          exact absurd hq' (Nat.not_lt_zero q')
    · rw [if_neg hi] at h
      rw [Option.some_inj, Prod.mk.injEq] at h
      intro p q hp hq
      rw [← h.1] at hp hq ⊢
      exact hpre.1 p q (by omega) (by omega) hp hq

/- Member form of the closure: after a completed pass over the list,
every producing pair of the final list has its derived sentence in the
final list. -/
theorem pairLoop_closed (fuel : ℕ) (k : List Sentence) (ch : Bool) (L : List Sentence)
    (ch' : Bool) (h : pairLoop fuel k 0 0 ch = some (L, ch')) :
    ∀ s ∈ L, ∀ t ∈ L, s.cells ≠ t.cells → is_subset s t = true →
      derivedSentence s t ∈ L := by
  intro s hs t ht hne hsub
  obtain ⟨⟨p, hp⟩, hps⟩ := List.mem_iff_get.mp hs
  obtain ⟨⟨q, hq⟩, hqt⟩ := List.mem_iff_get.mp ht
  have hok := pairLoop_closed_aux fuel k 0 0 ch L ch' h
    ⟨fun p q hpi _ _ _ => absurd hpi (Nat.not_lt_zero p),
     fun q hq' _ _ => absurd hq' (Nat.not_lt_zero q)⟩ p q hp hq
  have hsp : L.getD p ⟨∅, 0⟩ = s := by
    rw [List.getD_eq_getElem _ _ hp, ← hps]; rfl
  have hqt' : L.getD q ⟨∅, 0⟩ = t := by
    rw [List.getD_eq_getElem _ _ hq, ← hqt]; rfl
  unfold OKidx at hok
  rw [hsp, hqt'] at hok
  rcases hok with hc | hf | hm
  · exact absurd hc.symm hne
  · rw [hsub] at hf; cases hf
  · exact hm

/-- C2: whenever a pass of the pairwise inference loop completes, every
pair of sentences of the knowledge base with unequal cell sets where one
is a subset of the other has its derived sentence (bigger minus smaller,
cells and counts) present in the resulting knowledge base; each appended
sentence was absent when appended (structural dedup) and arises from a
strict-subset pair, so pairs with equal cell sets never produce one. -/
theorem C2_pair_derivation (fuel : ℕ) (k : List Sentence) (ch : Bool)
    (L : List Sentence) (ch' : Bool) (h : pairLoop fuel k 0 0 ch = some (L, ch')) :
    goodExt k L ∧
    ∀ s ∈ L, ∀ t ∈ L, s.cells ⊂ t.cells →
      (⟨t.cells \ s.cells, t.count - s.count⟩ : Sentence) ∈ L := by
  refine ⟨pairLoop_goodExt fuel k 0 0 ch L ch' k h (goodExt_refl k), ?_⟩
  intro s hs t ht hss
  have hne : s.cells ≠ t.cells := hss.ne
  have hcard := Finset.card_lt_card hss
  have hsub : is_subset s t = true := by
    rw [is_subset_true_iff, if_pos (le_of_lt hcard)]
    exact hss.subset
  have hmem := pairLoop_closed fuel k ch L ch' h s hs t ht hne hsub
  unfold derivedSentence at hmem
  rw [if_neg (by omega)] at hmem
  exact hmem

/-- Witness for C2: a two-sentence knowledge base where the singleton is
contained in the pair sentence; the completed pass contains the derived
difference sentence. -/
theorem C2_pair_derivation_witness :
    (⟨{((0:ℤ), (1:ℤ))}, (0:ℤ)⟩ : Sentence) ∈
      [(⟨{((0:ℤ), (0:ℤ)), ((0:ℤ), (1:ℤ))}, 1⟩ : Sentence),
       ⟨{((0:ℤ), (0:ℤ))}, 1⟩, ⟨{((0:ℤ), (1:ℤ))}, 0⟩] := by
  have h := (C2_pair_derivation 20
    [⟨{((0:ℤ), (0:ℤ)), ((0:ℤ), (1:ℤ))}, 1⟩, ⟨{((0:ℤ), (0:ℤ))}, 1⟩] false
    [⟨{((0:ℤ), (0:ℤ)), ((0:ℤ), (1:ℤ))}, 1⟩, ⟨{((0:ℤ), (0:ℤ))}, 1⟩,
     ⟨{((0:ℤ), (1:ℤ))}, 0⟩] true (by decide)).2
    ⟨{((0:ℤ), (0:ℤ))}, 1⟩ (by decide)
    ⟨{((0:ℤ), (0:ℤ)), ((0:ℤ), (1:ℤ))}, 1⟩ (by decide) (by decide)
  have heq : (⟨{((0:ℤ), (0:ℤ)), ((0:ℤ), (1:ℤ))} \ {((0:ℤ), (0:ℤ))},
      (1:ℤ) - 1⟩ : Sentence) = ⟨{((0:ℤ), (1:ℤ))}, 0⟩ := by decide
  rw [heq] at h
  exact h

/-- C8: on a knowledge-base state with no eligible cell (1x1 board whose
only cell is already in moves_made), make_random_move never returns,
whatever in-range random draws are supplied and however many draws are
allowed: the source loops forever instead of signalling
NoMovesAvailable. -/
theorem C8_random_move_stuck (fuel t : ℕ) (rnd : ℕ → Cell)
    (hb : ∀ n, 0 ≤ (rnd n).1 ∧ (rnd n).1 < 1 ∧ 0 ≤ (rnd n).2 ∧ (rnd n).2 < 1) :
    AI.make_random_move rnd t fuel ⟨1, 1, {((0:ℤ), (0:ℤ))}, ∅, ∅, []⟩ = none := by
  induction fuel generalizing t with
  | zero => rfl
  | succ n ih =>
    have hr : rnd t = ((0:ℤ), (0:ℤ)) := by
      obtain ⟨h1, h2, h3, h4⟩ := hb t
      have e1 : (rnd t).1 = 0 := by omega
      have e2 : (rnd t).2 = 0 := by omega
      exact Prod.ext e1 e2
    rw [AI.make_random_move]
    simp only [hr]
    rw [if_pos (Or.inr (by decide))]
    exact ih (t + 1)

/-- Witness for C8: the constant in-range stream on the exhausted 1x1
board makes no progress in five draws. -/
theorem C8_random_move_stuck_witness :
    AI.make_random_move (fun _ => ((0:ℤ), (0:ℤ))) 0 5
      ⟨1, 1, {((0:ℤ), (0:ℤ))}, ∅, ∅, []⟩ = none :=
  C8_random_move_stuck 5 0 _ (fun _ => by decide)

/-- C9: subset subtraction with a smaller set carrying the larger count
silently appends a sentence with negative count: from knowledge
{(0,0),(0,1)}=1 and {(0,0)}=2, add_knowledge over an unrelated cell
completes normally and leaves {(0,1)} = -1 in the knowledge base, with
no error signalled (the code has no error channel at all). -/
theorem C9_negative_count_appended :
    ∃ ai', AI.add_knowledge 3 60
        ⟨1, 9, ∅, ∅, ∅,
         [⟨{((0:ℤ), (0:ℤ)), ((0:ℤ), (1:ℤ))}, 1⟩, ⟨{((0:ℤ), (0:ℤ))}, 2⟩]⟩
        ((0:ℤ), (3:ℤ)) 4 = some ai' ∧
      (⟨{((0:ℤ), (1:ℤ))}, -1⟩ : Sentence) ∈ ai'.knowledge := by
  rcases hx : AI.add_knowledge 3 60
      ⟨1, 9, ∅, ∅, ∅,
       [⟨{((0:ℤ), (0:ℤ)), ((0:ℤ), (1:ℤ))}, 1⟩, ⟨{((0:ℤ), (0:ℤ))}, 2⟩]⟩
      ((0:ℤ), (3:ℤ)) 4 with _ | a
  · exact absurd hx (by decide)
  · refine ⟨a, rfl, ?_⟩
    have hni : (AI.add_knowledge 3 60
        ⟨1, 9, ∅, ∅, ∅,
         [⟨{((0:ℤ), (0:ℤ)), ((0:ℤ), (1:ℤ))}, 1⟩, ⟨{((0:ℤ), (0:ℤ))}, 2⟩]⟩
        ((0:ℤ), (3:ℤ)) 4).elim false
        (fun x => decide ((⟨{((0:ℤ), (1:ℤ))}, -1⟩ : Sentence) ∈ x.knowledge)) = true := by
      decide
    rw [hx] at hni
    simp only [Option.elim_some] at hni
    exact of_decide_eq_true hni

/-- C1 counterexample: starting from a fresh 2x2 AI, feeding the
inconsistent observations ((0,0), 2) then ((1,1), 0) makes both calls
complete, after which (0,1) and (1,0) are simultaneously confirmed safe
and confirmed mine: safes and mines intersect. -/
theorem C1_counterexample :
    ∃ ai2, (AI.add_knowledge 3 20 ⟨2, 2, ∅, ∅, ∅, []⟩ ((0:ℤ), (0:ℤ)) 2).bind
        (fun a => AI.add_knowledge 3 20 a ((1:ℤ), (1:ℤ)) 0) = some ai2 ∧
      ai2.safes ∩ ai2.mines ≠ ∅ := by
  rcases hx : (AI.add_knowledge 3 20 ⟨2, 2, ∅, ∅, ∅, []⟩ ((0:ℤ), (0:ℤ)) 2).bind
      (fun a => AI.add_knowledge 3 20 a ((1:ℤ), (1:ℤ)) 0) with _ | a
  · exact absurd hx (by decide)
  · refine ⟨a, rfl, ?_⟩
    have hni : ((AI.add_knowledge 3 20 ⟨2, 2, ∅, ∅, ∅, []⟩ ((0:ℤ), (0:ℤ)) 2).bind
        (fun a => AI.add_knowledge 3 20 a ((1:ℤ), (1:ℤ)) 0)).elim false
        (fun x => decide (x.safes ∩ x.mines ≠ ∅)) = true := by decide
    rw [hx] at hni
    simp only [Option.elim_some] at hni
    exact of_decide_eq_true hni

/- Sentence soundness is preserved by marking a non-mine cell safe. -/
theorem soundFor_mark_safe (M : Finset Cell) (s : Sentence) (c : Cell) (hc : c ∉ M)
    (h : soundFor M s) : soundFor M (s.mark_safe c) := by
  rw [Sentence.mark_safe_eq]
  unfold soundFor at h ⊢
  simp only
  have he : s.cells.erase c ∩ M = s.cells ∩ M := by
    ext x
    simp only [Finset.mem_inter, Finset.mem_erase]
    constructor
    · rintro ⟨⟨_, h1⟩, h2⟩; exact ⟨h1, h2⟩
    · rintro ⟨h1, h2⟩; exact ⟨⟨fun he => hc (he ▸ h2), h1⟩, h2⟩
  rw [he, ← h]

/- Sentence soundness is preserved by marking a true mine. -/
theorem soundFor_mark_mine (M : Finset Cell) (s : Sentence) (c : Cell) (hc : c ∈ M)
    (h : soundFor M s) : soundFor M (s.mark_mine c) := by
  rw [Sentence.mark_mine_eq]
  unfold soundFor at h ⊢
  simp only
  by_cases hm : c ∈ s.cells
  · rw [if_pos hm]
    have he : s.cells.erase c ∩ M = (s.cells ∩ M).erase c := by
      ext x
      simp only [Finset.mem_inter, Finset.mem_erase]
      tauto
    have hmem : c ∈ s.cells ∩ M := Finset.mem_inter.mpr ⟨hm, hc⟩
    rw [he, Finset.card_erase_of_mem hmem]
    have hpos : 0 < (s.cells ∩ M).card := Finset.card_pos.mpr ⟨c, hmem⟩
    omega
  · rw [if_neg hm, Finset.erase_eq_of_not_mem hm]
    exact h

/- AI-level mark_safe preserves state soundness when the cell is not a
mine of M. -/
theorem SoundState_mark_safe (M : Finset Cell) (ai : AI) (c : Cell) (hc : c ∉ M)
    (h : AI.SoundState M ai) : AI.SoundState M (ai.mark_safe c) := by
  obtain ⟨hk, hs, hm⟩ := h
  refine ⟨?_, ?_, hm⟩
  · intro s hs'
    rw [AI.mark_safe_knowledge, List.mem_map] at hs'
    obtain ⟨t, ht, rfl⟩ := hs'
    exact soundFor_mark_safe M t c hc (hk t ht)
  · rw [AI.mark_safe_safes, Finset.insert_inter_of_not_mem hc, hs]

/- AI-level mark_mine preserves state soundness when the cell is a true
mine of M. -/
theorem SoundState_mark_mine (M : Finset Cell) (ai : AI) (c : Cell) (hc : c ∈ M)
    (h : AI.SoundState M ai) : AI.SoundState M (ai.mark_mine c) := by
  obtain ⟨hk, hs, hm⟩ := h
  refine ⟨?_, hs, ?_⟩
  · intro s hs'
    rw [AI.mark_mine_knowledge, List.mem_map] at hs'
    obtain ⟨t, ht, rfl⟩ := hs'
    exact soundFor_mark_mine M t c hc (hk t ht)
  · rw [AI.mark_mine_mines]
    exact Finset.insert_subset hc hm

theorem SoundState_foldl_safes (M : Finset Cell) :
    ∀ (l : List Cell) (ai : AI), (∀ c ∈ l, c ∉ M) → AI.SoundState M ai →
      AI.SoundState M (l.foldl AI.mark_safe ai) := by
  intro l
  induction l with
  | nil => intro ai _ h; exact h
  | cons c l ih =>
    intro ai hl h
    rw [List.foldl_cons]
    exact ih _ (fun x hx => hl x (List.mem_cons_of_mem c hx))
      (SoundState_mark_safe M ai c (hl c (List.mem_cons_self c l)) h)

theorem SoundState_foldl_mines (M : Finset Cell) :
    ∀ (l : List Cell) (ai : AI), (∀ c ∈ l, c ∈ M) → AI.SoundState M ai →
      AI.SoundState M (l.foldl AI.mark_mine ai) := by
  intro l
  induction l with
  | nil => intro ai _ h; exact h
  | cons c l ih =>
    intro ai hl h
    rw [List.foldl_cons]
    exact ih _ (fun x hx => hl x (List.mem_cons_of_mem c hx))
      (SoundState_mark_mine M ai c (hl c (List.mem_cons_self c l)) h)

theorem SoundState_markSafes (M : Finset Cell) (ai : AI) (cs : Finset Cell)
    (hcs : ∀ c ∈ cs, c ∉ M) (h : AI.SoundState M ai) :
    AI.SoundState M (ai.markSafes cs) := by
  unfold AI.markSafes
  have hcs' : ∀ c ∈ cs.val, c ∉ M := fun c hc => hcs c hc
  revert hcs'
  generalize cs.val = m
  intro hcs'
  induction m using Quotient.inductionOn with
  | h l =>
    exact SoundState_foldl_safes M l ai (fun c hc => hcs' c (Multiset.mem_coe.mpr hc)) h

theorem SoundState_markMines (M : Finset Cell) (ai : AI) (cs : Finset Cell)
    (hcs : ∀ c ∈ cs, c ∈ M) (h : AI.SoundState M ai) :
    AI.SoundState M (ai.markMines cs) := by
  unfold AI.markMines
  have hcs' : ∀ c ∈ cs.val, c ∈ M := fun c hc => hcs c hc
  revert hcs'
  generalize cs.val = m
  intro hcs'
  induction m using Quotient.inductionOn with
  | h l =>
    exact SoundState_foldl_mines M l ai (fun c hc => hcs' c (Multiset.mem_coe.mpr hc)) h

/- Membership in the folded unions of computeSafes and computeMines. -/
theorem foldl_union_mem (f : Sentence → Finset Cell) :
    ∀ (l : List Sentence) (init : Finset Cell) (c : Cell),
      c ∈ l.foldl (fun acc s => acc ∪ f s) init ↔ c ∈ init ∨ ∃ s ∈ l, c ∈ f s := by
  intro l
  induction l with
  | nil => intro init c; simp
  | cons a l ih =>
    intro init c
    rw [List.foldl_cons, ih]
    simp only [Finset.mem_union, List.mem_cons]
    constructor
    · rintro ((h | h) | ⟨s, hs, hc⟩)
      · exact Or.inl h
      · exact Or.inr ⟨a, Or.inl rfl, h⟩
      · exact Or.inr ⟨s, Or.inr hs, hc⟩
    · rintro (h | ⟨s, (rfl | hs), hc⟩)
      · exact Or.inl (Or.inl h)
      · exact Or.inl (Or.inr hc)
      · exact Or.inr ⟨s, hs, hc⟩

theorem mem_computeSafes (ai : AI) (c : Cell) :
    c ∈ ai.computeSafes ↔ ∃ s ∈ ai.knowledge, c ∈ s.known_safes := by
  unfold AI.computeSafes
  rw [foldl_union_mem]
  simp

theorem mem_computeMines (ai : AI) (c : Cell) :
    c ∈ ai.computeMines ↔ ∃ s ∈ ai.knowledge, c ∈ s.known_mines := by
  unfold AI.computeMines
  rw [foldl_union_mem]
  simp

/- A sound sentence only reports safes that are not mines of M. -/
theorem known_safes_not_mem (M : Finset Cell) (s : Sentence) (c : Cell)
    (h : soundFor M s) (hc : c ∈ s.known_safes) : c ∉ M := by
  unfold Sentence.known_safes at hc
  split_ifs at hc with h0
  · intro hcM
    unfold soundFor at h
    rw [h0] at h
    have hcc : s.cells ∩ M = ∅ := Finset.card_eq_zero.mp (by omega)
    have hmem : c ∈ s.cells ∩ M := Finset.mem_inter.mpr ⟨hc, hcM⟩
    rw [hcc] at hmem
    exact Finset.not_mem_empty c hmem
  · exact absurd hc (Finset.not_mem_empty c)

/- A sound sentence only reports mines that are mines of M. -/
theorem known_mines_mem (M : Finset Cell) (s : Sentence) (c : Cell)
    (h : soundFor M s) (hc : c ∈ s.known_mines) : c ∈ M := by
  unfold Sentence.known_mines at hc
  split_ifs at hc with h0
  · obtain ⟨hcard, hne⟩ := h0
    unfold soundFor at h
    have hc2 : s.cells.card ≤ (s.cells ∩ M).card := by omega
    have heq := Finset.eq_of_subset_of_card_le Finset.inter_subset_left hc2
    have hmem : c ∈ s.cells ∩ M := heq.symm ▸ hc
    exact (Finset.mem_inter.mp hmem).2
  · exact absurd hc (Finset.not_mem_empty c)

/- Derived sentences of sound producing pairs are sound. -/
theorem soundFor_derived (M : Finset Cell) (s t : Sentence)
    (hs : soundFor M s) (ht : soundFor M t)
    (hne : s.cells ≠ t.cells) (hsub : is_subset s t = true) :
    soundFor M (derivedSentence s t) := by
  obtain ⟨a, b, hab, hss, hde⟩ := derivedSentence_spec s t hne hsub
  have ha : soundFor M a := by
    rcases hab with ⟨h1, _⟩ | ⟨h1, _⟩ <;> subst h1 <;> assumption
  have hb : soundFor M b := by
    rcases hab with ⟨_, h1⟩ | ⟨_, h1⟩ <;> subst h1 <;> assumption
  rw [hde]
  unfold soundFor at ha hb ⊢
  simp only
  have hsets : (b.cells \ a.cells) ∩ M = (b.cells ∩ M) \ (a.cells ∩ M) := by
    ext x
    simp only [Finset.mem_inter, Finset.mem_sdiff]
    tauto
  have hsub2 : a.cells ∩ M ⊆ b.cells ∩ M :=
    Finset.inter_subset_inter hss.subset (Finset.Subset.refl M)
  have hle := Finset.card_le_card hsub2
  rw [hsets, Finset.card_sdiff hsub2]
  omega

/- The pair loop preserves sentence soundness. -/
theorem pairLoop_sound (M : Finset Cell) : ∀ (fuel : ℕ) (k : List Sentence) (i j : ℕ)
    (ch : Bool) (L : List Sentence) (ch' : Bool),
    pairLoop fuel k i j ch = some (L, ch') → (∀ s ∈ k, soundFor M s) →
    ∀ s ∈ L, soundFor M s := by
  intro fuel
  induction fuel with
  | zero =>
    intro k i j ch L ch' h hk
    simp [pairLoop] at h
  | succ n ih =>
    intro k i j ch L ch' h hk
    rw [pairLoop] at h
    by_cases hi : i < k.length
    · rw [if_pos hi] at h
      by_cases hj : j < k.length
      · rw [if_pos hj] at h
        by_cases hcell : (k.getD j ⟨∅, 0⟩).cells = (k.getD i ⟨∅, 0⟩).cells
        · rw [if_pos hcell] at h
          exact ih _ _ _ _ _ _ h hk
        · rw [if_neg hcell] at h
          by_cases hsub : is_subset (k.getD i ⟨∅, 0⟩) (k.getD j ⟨∅, 0⟩) = true
          · rw [if_pos hsub] at h
            by_cases hmem : derivedSentence (k.getD i ⟨∅, 0⟩) (k.getD j ⟨∅, 0⟩) ∈ k
            · rw [if_pos hmem] at h
              exact ih _ _ _ _ _ _ h hk
            · rw [if_neg hmem] at h
              refine ih _ _ _ _ _ _ h ?_
              intro s hs
              rcases List.mem_append.mp hs with h1 | h1
              · exact hk s h1
              · rw [List.mem_singleton] at h1
                subst h1
                exact soundFor_derived M _ _
                  (hk _ (getD_mem k i hi)) (hk _ (getD_mem k j hj))
                  (fun hx => hcell hx.symm) hsub
          · rw [if_neg hsub] at h
            exact ih _ _ _ _ _ _ h hk
      · rw [if_neg hj] at h
        exact ih _ _ _ _ _ _ h hk
    · rw [if_neg hi] at h
      rw [Option.some_inj, Prod.mk.injEq] at h
      rw [← h.1]
      exact hk

/- A completed pass preserves state soundness. -/
theorem runPass_sound (M : Finset Cell) (pf : ℕ) (ai ai' : AI) (ch' : Bool)
    (h : ai.runPass pf = some (ai', ch')) (hs : AI.SoundState M ai) :
    AI.SoundState M ai' := by
  unfold AI.runPass at h
  have hsafesOK : ∀ c ∈ ai.computeSafes, c ∉ M := by
    intro c hc'
    obtain ⟨s, hsk, hcs⟩ := (mem_computeSafes ai c).mp hc'
    exact known_safes_not_mem M s c (hs.1 s hsk) hcs
  have hminesOK : ∀ c ∈ ai.computeMines, c ∈ M := by
    intro c hc'
    obtain ⟨s, hsk, hcs⟩ := (mem_computeMines ai c).mp hc'
    exact known_mines_mem M s c (hs.1 s hsk) hcs
  have h1 : AI.SoundState M
      (if 0 < ai.computeSafes.card then ai.markSafes ai.computeSafes else ai) := by
    split_ifs with hc
    · exact SoundState_markSafes M ai _ hsafesOK hs
    · exact hs
  have h2 : AI.SoundState M
      (if 0 < ai.computeMines.card then
        (if 0 < ai.computeSafes.card then ai.markSafes ai.computeSafes
          else ai).markMines ai.computeMines
      else if 0 < ai.computeSafes.card then ai.markSafes ai.computeSafes else ai) := by
    by_cases hc : 0 < ai.computeMines.card
    · rw [if_pos hc]
      exact SoundState_markMines M _ _ hminesOK h1
    · rw [if_neg hc]
      exact h1
  have h3 : AI.SoundState M ai.passInput := by
    unfold AI.passInput
    dsimp only
    exact ⟨fun t ht => h2.1 t (List.mem_filter.mp ht).1, h2.2.1, h2.2.2⟩
  split at h
  · exact Option.noConfusion h
  · next L ch2 heq =>
    rw [Option.some_inj, Prod.mk.injEq] at h
    rw [← h.1]
    exact ⟨pairLoop_sound M pf _ 0 0 _ L ch2 heq h3.1, h3.2.1, h3.2.2⟩

/- The whole while loop preserves state soundness. -/
theorem loopKnowledge_sound (M : Finset Cell) : ∀ (n pf : ℕ) (ai ai' : AI),
    AI.loopKnowledge n pf ai = some ai' → AI.SoundState M ai → AI.SoundState M ai' := by
  intro n
  induction n with
  | zero =>
    intro pf ai ai' h hs
    simp [AI.loopKnowledge] at h
  | succ m ih =>
    intro pf ai ai' h hs
    rw [AI.loopKnowledge] at h
    split at h
    · exact Option.noConfusion h
    · next a heq =>
      exact ih pf a ai' h (runPass_sound M pf ai a true heq hs)
    · next a heq =>
      rw [Option.some_inj] at h
      rw [← h]
      exact runPass_sound M pf ai a false heq hs

/- The append phase preserves state soundness when fed the true count of
mines among the in-bounds neighbours of a non-mine cell. -/
theorem add_knowledge_append_sound (M : Finset Cell) (ai : AI) (cell : Cell) (count : ℤ)
    (hs : AI.SoundState M ai) (hcell : cell ∉ M)
    (hcount : count = ((ai.neighborCells cell ∩ M).card : ℤ)) :
    AI.SoundState M (ai.add_knowledge_append cell count) := by
  obtain ⟨hk, hsafes, hmines⟩ := hs
  have hs1 : AI.SoundState M ({ ai with moves_made := insert cell ai.moves_made } : AI) :=
    ⟨hk, hsafes, hmines⟩
  have hs2 := SoundState_mark_safe M _ cell hcell hs1
  have hnew : soundFor M
      ⟨(ai.neighborCells cell).filter
          (fun n => n ∉ ai.mines ∧ n ∉ insert cell ai.safes),
        count - (((ai.neighborCells cell).filter (fun n => n ∈ ai.mines)).card : ℤ)⟩ := by
    unfold soundFor
    simp only
    have e1 : (ai.neighborCells cell).filter
        (fun n => n ∉ ai.mines ∧ n ∉ insert cell ai.safes) ∩ M =
        ((ai.neighborCells cell) ∩ M).filter (fun n => n ∉ ai.mines) := by
      ext x
      simp only [Finset.mem_filter, Finset.mem_inter, Finset.mem_insert]
      constructor
      · rintro ⟨⟨hxn, hnm, _⟩, hxM⟩
        exact ⟨⟨hxn, hxM⟩, hnm⟩
      · rintro ⟨⟨hxn, hxM⟩, hnm⟩
        refine ⟨⟨hxn, hnm, ?_⟩, hxM⟩
        rintro (rfl | hxs)
        · exact hcell hxM
        · have hxx : x ∈ ai.safes ∩ M := Finset.mem_inter.mpr ⟨hxs, hxM⟩
          rw [hsafes] at hxx
          exact Finset.not_mem_empty x hxx
    have e2 : ((ai.neighborCells cell) ∩ M).filter (fun n => n ∈ ai.mines) =
        (ai.neighborCells cell).filter (fun n => n ∈ ai.mines) := by
      ext x
      simp only [Finset.mem_filter, Finset.mem_inter]
      constructor
      · rintro ⟨⟨hxn, _⟩, hxm⟩
        exact ⟨hxn, hxm⟩
      · rintro ⟨hxn, hxm⟩
        exact ⟨⟨hxn, hmines hxm⟩, hxm⟩
    have e3 := @Finset.filter_card_add_filter_neg_card_eq_card _
      ((ai.neighborCells cell) ∩ M) (fun n => n ∈ ai.mines) _ _
    rw [e1, hcount]
    rw [e2] at e3
    omega
  unfold AI.add_knowledge_append
  refine ⟨?_, hs2.2.1, hs2.2.2⟩
  intro s hsmem
  rcases List.mem_append.mp hsmem with h1 | h1
  · exact hs2.1 s h1
  · rw [List.mem_singleton] at h1
    subst h1
    exact hnew

/-- C1 amended: for every knowledge-base state sound for a mine set M
(every sentence counts its true M-mines, no confirmed safe is in M,
every confirmed mine is in M) and every completed call
add_knowledge(cell, count) where cell is not a mine and count is the
true number of M-mines among the in-bounds neighbours of cell, the
resulting confirmed safe and mine sets are disjoint. -/
theorem C1_amended (M : Finset Cell) (ai : AI) (cell : Cell) (count : ℤ) (n pf : ℕ)
    (ai' : AI) (hsound : AI.SoundState M ai) (hcell : cell ∉ M)
    (hcount : count = ((ai.neighborCells cell ∩ M).card : ℤ))
    (hrun : AI.add_knowledge n pf ai cell count = some ai') :
    ai'.safes ∩ ai'.mines = ∅ := by
  have h1 := add_knowledge_append_sound M ai cell count hsound hcell hcount
  have h2 := loopKnowledge_sound M n pf _ ai' hrun h1
  obtain ⟨_, hsafes, hmines⟩ := h2
  rw [Finset.eq_empty_iff_forall_not_mem]
  intro x hx
  obtain ⟨hxs, hxm⟩ := Finset.mem_inter.mp hx
  have hxx : x ∈ ai'.safes ∩ M := Finset.mem_inter.mpr ⟨hxs, hmines hxm⟩
  rw [hsafes] at hxx
  exact Finset.not_mem_empty x hxx

/-- Witness for C1 amended: the 1x3 board with mine set {(0,2)},
revealing (0,0) with its true count 0. -/
theorem C1_amended_witness :
    ∃ ai', AI.add_knowledge 3 20 ⟨1, 3, ∅, ∅, ∅, []⟩ ((0:ℤ), (0:ℤ)) 0 = some ai' ∧
      ai'.safes ∩ ai'.mines = ∅ := by
  rcases hx : AI.add_knowledge 3 20 ⟨1, 3, ∅, ∅, ∅, []⟩ ((0:ℤ), (0:ℤ)) 0 with _ | a
  · exact absurd hx (by decide)
  · exact ⟨a, rfl, C1_amended {((0:ℤ), (2:ℤ))} _ _ _ 3 20 a
      ⟨fun s hs => absurd hs (List.not_mem_nil s), by decide, by decide⟩
      (by decide) (by decide) hx⟩

/- The pair loop can never exit on the inconsistent list
[sentA, sentB, sentC, sentD]: a terminated pass would be closed under
derivation, and pairing sentA and sentB against the singleton sentences
keeps producing singleton counts outside the range already present, so
no finite closed list exists. -/
theorem pairLoop_bad (pf : ℕ) (L : List Sentence) (ch' : Bool) :
    pairLoop pf [sentA, sentB, sentC, sentD] 0 0 false ≠ some (L, ch') := by
  intro h
  obtain ⟨news, hL, _, _, _⟩ :=
    pairLoop_goodExt pf _ 0 0 false L ch' _ h (goodExt_refl [sentA, sentB, sentC, sentD])
  have hAL : sentA ∈ L := by rw [hL]; exact List.mem_append_left _ (by decide)
  have hBL : sentB ∈ L := by rw [hL]; exact List.mem_append_left _ (by decide)
  have hCL : sentC ∈ L := by rw [hL]; exact List.mem_append_left _ (by decide)
  have hclosed := pairLoop_closed pf _ false L ch' h
  have hgen : ∀ b : Sentence, b ∈ L → b.cells = {((0:ℤ), (0:ℤ)), ((0:ℤ), (1:ℤ))} →
      ∀ s ∈ L, (s.cells = {((0:ℤ), (0:ℤ))} ∨ s.cells = {((0:ℤ), (1:ℤ))}) →
      ∃ t ∈ L, (t.cells = {((0:ℤ), (0:ℤ))} ∨ t.cells = {((0:ℤ), (1:ℤ))}) ∧
        t.count = b.count - s.count := by
    intro b hbL hbc s hsL hsc
    rcases hsc with h1 | h1
    · have hne : s.cells ≠ b.cells := by rw [h1, hbc]; decide
      have hsub : is_subset s b = true := by
        rw [is_subset_true_iff, h1, hbc]; decide
      have hd := hclosed s hsL b hbL hne hsub
      have hcond : ¬(s.cells.card > b.cells.card) := by rw [h1, hbc]; decide
      have hde : derivedSentence s b = ⟨b.cells \ s.cells, b.count - s.count⟩ := by
        unfold derivedSentence
        rw [if_neg hcond]
      have hcells : b.cells \ s.cells = {((0:ℤ), (1:ℤ))} := by rw [h1, hbc]; decide
      refine ⟨derivedSentence s b, hd, Or.inr ?_, ?_⟩
      · rw [hde]; exact hcells
      · rw [hde]
    · have hne : s.cells ≠ b.cells := by rw [h1, hbc]; decide
      have hsub : is_subset s b = true := by
        rw [is_subset_true_iff, h1, hbc]; decide
      have hd := hclosed s hsL b hbL hne hsub
      have hcond : ¬(s.cells.card > b.cells.card) := by rw [h1, hbc]; decide
      have hde : derivedSentence s b = ⟨b.cells \ s.cells, b.count - s.count⟩ := by
        unfold derivedSentence
        rw [if_neg hcond]
      have hcells : b.cells \ s.cells = {((0:ℤ), (0:ℤ))} := by rw [h1, hbc]; decide
      refine ⟨derivedSentence s b, hd, Or.inl ?_, ?_⟩
      · rw [hde]; exact hcells
      · rw [hde]
  set T : Finset ℤ := ((L.filter (fun s =>
      decide (s.cells = {((0:ℤ), (0:ℤ))} ∨ s.cells = {((0:ℤ), (1:ℤ))}))).map
      Sentence.count).toFinset with hT
  have hmemT : ∀ c : ℤ, c ∈ T ↔ ∃ s ∈ L,
      (s.cells = {((0:ℤ), (0:ℤ))} ∨ s.cells = {((0:ℤ), (1:ℤ))}) ∧ s.count = c := by
    intro c
    rw [hT]
    simp only [List.mem_toFinset, List.mem_map, List.mem_filter, decide_eq_true_eq]
    constructor
    · rintro ⟨s, ⟨hsL, hsc⟩, hcount⟩
      exact ⟨s, hsL, hsc, hcount⟩
    · rintro ⟨s, hsL, hsc, hcount⟩
      exact ⟨s, ⟨hsL, hsc⟩, hcount⟩
  have hstep : ∀ c : ℤ, c ∈ T → (10 - c) ∈ T ∧ (20 - c) ∈ T := by
    intro c hc
    obtain ⟨s, hsL, hsc, hscount⟩ := (hmemT c).mp hc
    constructor
    · obtain ⟨t, htL, htc, htcount⟩ := hgen sentA hAL (by decide) s hsL hsc
      refine (hmemT _).mpr ⟨t, htL, htc, ?_⟩
      rw [htcount, hscount]
      rfl
    · obtain ⟨t, htL, htc, htcount⟩ := hgen sentB hBL (by decide) s hsL hsc
      refine (hmemT _).mpr ⟨t, htL, htc, ?_⟩
      rw [htcount, hscount]
      rfl
  have hTne : T.Nonempty := ⟨5, (hmemT 5).mpr ⟨sentC, hCL, Or.inl (by decide), by decide⟩⟩
  obtain ⟨_, h20⟩ := hstep (T.min' hTne) (T.min'_mem hTne)
  obtain ⟨h10, _⟩ := hstep (T.max' hTne) (T.max'_mem hTne)
  have ha := T.le_max' _ h20
  have hb := T.min'_le _ h10
  omega

theorem pairLoop_bad_none (pf : ℕ) :
    pairLoop pf [sentA, sentB, sentC, sentD] 0 0 false = none := by
  rcases h : pairLoop pf [sentA, sentB, sentC, sentD] 0 0 false with _ | ⟨L, ch'⟩
  · rfl
  · exact absurd h (pairLoop_bad pf L ch')

theorem runPass_aiBad1 (pf : ℕ) : AI.runPass pf aiBad1 = none := by
  unfold AI.runPass
  have h1 : (aiBad1.passInput).knowledge = [sentA, sentB, sentC, sentD] := by decide
  have h2 : aiBad1.passChanged = false := by decide
  rw [h1, h2, pairLoop_bad_none pf]

/-- C7 counterexample: on the knowledge-base state aiBad (sentences
{(0,0),(0,1)}=10, {(0,0),(0,1)}=20, {(0,0)}=5) the call
add_knowledge((0,5), 4) never returns: the inference loop of the source
runs forever, whatever the pass and step budgets. -/
theorem C7_counterexample :
    ¬ ∃ (n pf : ℕ) (ai' : AI),
        AI.add_knowledge n pf aiBad ((0:ℤ), (5:ℤ)) 4 = some ai' := by
  rintro ⟨n, pf, ai', h⟩
  unfold AI.add_knowledge at h
  rw [show aiBad.add_knowledge_append ((0:ℤ), (5:ℤ)) 4 = aiBad1 from by decide] at h
  cases n with
  | zero => exact Option.noConfusion h
  | succ m =>
    rw [AI.loopKnowledge, runPass_aiBad1 pf] at h
    exact Option.noConfusion h

/- More fuel never changes a successful pair-loop run. -/
theorem pairLoop_mono : ∀ (fuel : ℕ) (k : List Sentence) (i j : ℕ) (ch : Bool)
    (r : List Sentence × Bool), pairLoop fuel k i j ch = some r →
    pairLoop (fuel + 1) k i j ch = some r := by
  intro fuel
  induction fuel with
  | zero =>
    intro k i j ch r h
    simp [pairLoop] at h
  | succ n ih =>
    intro k i j ch r h
    rw [pairLoop] at h
    rw [pairLoop]
    by_cases hi : i < k.length
    · rw [if_pos hi] at h ⊢
      by_cases hj : j < k.length
      · rw [if_pos hj] at h ⊢
        by_cases hcell : (k.getD j ⟨∅, 0⟩).cells = (k.getD i ⟨∅, 0⟩).cells
        · rw [if_pos hcell] at h ⊢
          exact ih _ _ _ _ _ h
        · rw [if_neg hcell] at h ⊢
          by_cases hsub : is_subset (k.getD i ⟨∅, 0⟩) (k.getD j ⟨∅, 0⟩) = true
          · rw [if_pos hsub] at h ⊢
            by_cases hmem : derivedSentence (k.getD i ⟨∅, 0⟩) (k.getD j ⟨∅, 0⟩) ∈ k
            · rw [if_pos hmem] at h ⊢
              exact ih _ _ _ _ _ h
            · rw [if_neg hmem] at h ⊢
              exact ih _ _ _ _ _ h
          · rw [if_neg hsub] at h ⊢
            exact ih _ _ _ _ _ h
      · rw [if_neg hj] at h ⊢
        exact ih _ _ _ _ _ h
    · rw [if_neg hi] at h ⊢
      exact h

theorem pairLoop_mono_le (fuel fuel' : ℕ) (k : List Sentence) (i j : ℕ) (ch : Bool)
    (r : List Sentence × Bool) (hle : fuel ≤ fuel')
    (h : pairLoop fuel k i j ch = some r) : pairLoop fuel' k i j ch = some r := by
  induction fuel' with
  | zero =>
    have : fuel = 0 := by omega
    subst this
    exact h
  | succ m ih =>
    rcases Nat.lt_succ_iff_lt_or_eq.mp (Nat.lt_succ_of_le hle) with hlt | heq
    · exact pairLoop_mono m k i j ch r (ih (by omega))
    · subst heq
      exact h

/- Appending only removes candidates from the absent count. -/
theorem absentCount_append_le (U M : Finset Cell) (k l : List Sentence) :
    absentCount U M (k ++ l) ≤ absentCount U M k := by
  unfold absentCount
  apply Finset.card_le_card
  intro S hS
  rw [Finset.mem_filter] at hS ⊢
  exact ⟨hS.1, hS.2.1, fun hmem => hS.2.2 (List.mem_append_left l hmem)⟩

/- Appending a fresh sound non-empty sentence with cells inside U
strictly decreases the absent count. -/
theorem absentCount_append_lt (U M : Finset Cell) (k : List Sentence) (ns : Sentence)
    (hns : ns ∉ k) (hsound : soundFor M ns) (hcellsU : ns.cells ⊆ U)
    (hne : ns.cells.Nonempty) :
    absentCount U M (k ++ [ns]) < absentCount U M k := by
  unfold absentCount
  apply Finset.card_lt_card
  rw [Finset.ssubset_iff_of_subset]
  · refine ⟨ns.cells, ?_, ?_⟩
    · rw [Finset.mem_filter]
      refine ⟨Finset.mem_powerset.mpr hcellsU, hne, ?_⟩
      have hid : (⟨ns.cells, ((ns.cells ∩ M).card : ℤ)⟩ : Sentence) = ns := by
        unfold soundFor at hsound
        cases ns with
        | mk cs ct => simp only at hsound ⊢; rw [hsound]
      rw [hid]
      exact hns
    · rw [Finset.mem_filter]
      intro hc
      apply hc.2.2
      have hid : (⟨ns.cells, ((ns.cells ∩ M).card : ℤ)⟩ : Sentence) = ns := by
        unfold soundFor at hsound
        cases ns with
        | mk cs ct => simp only at hsound ⊢; rw [hsound]
      rw [hid]
      exact List.mem_append_right k (List.mem_singleton_self ns)
  · intro S hS
    rw [Finset.mem_filter] at hS ⊢
    exact ⟨hS.1, hS.2.1, fun hmem => hS.2.2 (List.mem_append_left [ns] hmem)⟩

/- The absent count never exceeds the number of subsets of U. -/
theorem absentCount_le (U M : Finset Cell) (k : List Sentence) :
    absentCount U M k ≤ U.powerset.card :=
  Finset.card_filter_le _ _

/- The pair loop keeps every sentence's cells inside any superset U of
the input's cells. -/
theorem pairLoop_cellsU (U : Finset Cell) : ∀ (fuel : ℕ) (k : List Sentence) (i j : ℕ)
    (ch : Bool) (L : List Sentence) (ch' : Bool),
    pairLoop fuel k i j ch = some (L, ch') → (∀ s ∈ k, s.cells ⊆ U) →
    ∀ s ∈ L, s.cells ⊆ U := by
  intro fuel
  induction fuel with
  | zero =>
    intro k i j ch L ch' h hk
    simp [pairLoop] at h
  | succ n ih =>
    intro k i j ch L ch' h hk
    rw [pairLoop] at h
    by_cases hi : i < k.length
    · rw [if_pos hi] at h
      by_cases hj : j < k.length
      · rw [if_pos hj] at h
        by_cases hcell : (k.getD j ⟨∅, 0⟩).cells = (k.getD i ⟨∅, 0⟩).cells
        · rw [if_pos hcell] at h
          exact ih _ _ _ _ _ _ h hk
        · rw [if_neg hcell] at h
          by_cases hsub : is_subset (k.getD i ⟨∅, 0⟩) (k.getD j ⟨∅, 0⟩) = true
          · rw [if_pos hsub] at h
            by_cases hmem : derivedSentence (k.getD i ⟨∅, 0⟩) (k.getD j ⟨∅, 0⟩) ∈ k
            · rw [if_pos hmem] at h
              exact ih _ _ _ _ _ _ h hk
            · rw [if_neg hmem] at h
              refine ih _ _ _ _ _ _ h ?_
              intro s hs
              rcases List.mem_append.mp hs with h1 | h1
              · exact hk s h1
              · rw [List.mem_singleton] at h1
                subst h1
                obtain ⟨a, b, hab, hss, hde⟩ := derivedSentence_spec _ _
                  (fun hx => hcell hx.symm) hsub
                rw [hde]
                have hbk : b ∈ k := by
                  rcases hab with ⟨_, h2⟩ | ⟨_, h2⟩ <;> subst h2
                  · exact getD_mem k j hj
                  · exact getD_mem k i hi
                exact (Finset.sdiff_subset).trans (hk b hbk)
          · rw [if_neg hsub] at h
            exact ih _ _ _ _ _ _ h hk
      · rw [if_neg hj] at h
        exact ih _ _ _ _ _ _ h hk
    · rw [if_neg hi] at h
      rw [Option.some_inj, Prod.mk.injEq] at h
      rw [← h.1]
      exact hk

/- The pair loop never increases the absent count, decreases it
strictly whenever it appends, and only reports change when it entered
with the flag set or appended something. -/
theorem pairLoop_absent (U M : Finset Cell) : ∀ (fuel : ℕ) (k : List Sentence) (i j : ℕ)
    (ch : Bool) (L : List Sentence) (ch' : Bool),
    pairLoop fuel k i j ch = some (L, ch') →
    (∀ s ∈ k, soundFor M s) → (∀ s ∈ k, s.cells ⊆ U) →
    absentCount U M L ≤ absentCount U M k ∧
      (ch' = true → ch = true ∨ absentCount U M L < absentCount U M k) := by
  intro fuel
  induction fuel with
  | zero =>
    intro k i j ch L ch' h _ _
    simp [pairLoop] at h
  | succ n ih =>
    intro k i j ch L ch' h hsound hcells
    rw [pairLoop] at h
    by_cases hi : i < k.length
    · rw [if_pos hi] at h
      by_cases hj : j < k.length
      · rw [if_pos hj] at h
        by_cases hcell : (k.getD j ⟨∅, 0⟩).cells = (k.getD i ⟨∅, 0⟩).cells
        · rw [if_pos hcell] at h
          exact ih _ _ _ _ _ _ h hsound hcells
        · rw [if_neg hcell] at h
          by_cases hsub : is_subset (k.getD i ⟨∅, 0⟩) (k.getD j ⟨∅, 0⟩) = true
          · rw [if_pos hsub] at h
            by_cases hmem : derivedSentence (k.getD i ⟨∅, 0⟩) (k.getD j ⟨∅, 0⟩) ∈ k
            · rw [if_pos hmem] at h
              exact ih _ _ _ _ _ _ h hsound hcells
            · rw [if_neg hmem] at h
              obtain ⟨a, b, hab, hss, hde⟩ := derivedSentence_spec _ _
                (fun hx => hcell hx.symm) hsub
              have hbk : b ∈ k := by
                rcases hab with ⟨_, h2⟩ | ⟨_, h2⟩ <;> subst h2
                · exact getD_mem k j hj
                · exact getD_mem k i hi
              have hak : a ∈ k := by
                rcases hab with ⟨h2, _⟩ | ⟨h2, _⟩ <;> subst h2
                · exact getD_mem k i hi
                · exact getD_mem k j hj
              have hnsound : soundFor M (derivedSentence (k.getD i ⟨∅, 0⟩) (k.getD j ⟨∅, 0⟩)) :=
                soundFor_derived M _ _ (hsound _ (getD_mem k i hi))
                  (hsound _ (getD_mem k j hj)) (fun hx => hcell hx.symm) hsub
              have hnU : (derivedSentence (k.getD i ⟨∅, 0⟩) (k.getD j ⟨∅, 0⟩)).cells ⊆ U := by
                rw [hde]
                exact (Finset.sdiff_subset).trans (hcells b hbk)
              have hnne : (derivedSentence (k.getD i ⟨∅, 0⟩) (k.getD j ⟨∅, 0⟩)).cells.Nonempty := by
                rw [hde]
                rw [Finset.sdiff_nonempty]
                exact fun hcon => hss.ne (Finset.Subset.antisymm hss.subset hcon)
              have hlt := absentCount_append_lt U M k _ hmem hnsound hnU hnne
              have hrest := ih _ _ _ _ _ _ h ?_ ?_
              · refine ⟨le_trans hrest.1 (le_of_lt hlt), fun _ => Or.inr ?_⟩
                exact lt_of_le_of_lt hrest.1 hlt
              · intro s hs
                rcases List.mem_append.mp hs with h1 | h1
                · exact hsound s h1
                · rw [List.mem_singleton] at h1
                  subst h1
                  exact hnsound
              · intro s hs
                rcases List.mem_append.mp hs with h1 | h1
                · exact hcells s h1
                · rw [List.mem_singleton] at h1
                  subst h1
                  exact hnU
          · rw [if_neg hsub] at h
            exact ih _ _ _ _ _ _ h hsound hcells
      · rw [if_neg hj] at h
        exact ih _ _ _ _ _ _ h hsound hcells
    · rw [if_neg hi] at h
      rw [Option.some_inj, Prod.mk.injEq] at h
      rw [← h.1]
      exact ⟨le_refl _, fun hh => Or.inl (h.2 ▸ hh)⟩

/- On sound input lists the pair loop terminates: a fuel budget beyond
the measure below suffices to reach the exit. -/
theorem pairLoop_term (M U : Finset Cell) (W : ℕ) :
    ∀ (n : ℕ) (k : List Sentence) (i j : ℕ) (ch : Bool),
    (∀ s ∈ k, soundFor M s) → (∀ s ∈ k, s.cells ⊆ U) →
    i ≤ k.length → k.length + absentCount U M k ≤ W →
    absentCount U M k * ((W + 2) * (W + 2)) + (k.length - i) * (W + 2) + (k.length - j) < n →
    ∃ r, pairLoop n k i j ch = some r := by
  intro n
  induction n using Nat.strong_induction_on with
  | _ n ih =>
    intro k i j ch hsound hcells hi hW hμ
    cases n with
    | zero => omega
    | succ m =>
      rw [pairLoop]
      by_cases hilen : i < k.length
      · rw [if_pos hilen]
        by_cases hjlen : j < k.length
        · rw [if_pos hjlen]
          by_cases hcell : (k.getD j ⟨∅, 0⟩).cells = (k.getD i ⟨∅, 0⟩).cells
          · rw [if_pos hcell]
            exact ih m (by omega) k i (j + 1) ch hsound hcells hi hW (by omega)
          · rw [if_neg hcell]
            by_cases hsub : is_subset (k.getD i ⟨∅, 0⟩) (k.getD j ⟨∅, 0⟩) = true
            · rw [if_pos hsub]
              by_cases hmem : derivedSentence (k.getD i ⟨∅, 0⟩) (k.getD j ⟨∅, 0⟩) ∈ k
              · rw [if_pos hmem]
                exact ih m (by omega) k i (j + 1) ch hsound hcells hi hW (by omega)
              · rw [if_neg hmem]
                set ns := derivedSentence (k.getD i ⟨∅, 0⟩) (k.getD j ⟨∅, 0⟩) with hns
                obtain ⟨a, b, hab, hss, hde⟩ := derivedSentence_spec _ _
                  (fun hx => hcell hx.symm) hsub
                have hbk : b ∈ k := by
                  rcases hab with ⟨_, h2⟩ | ⟨_, h2⟩ <;> subst h2
                  · exact getD_mem k j hjlen
                  · exact getD_mem k i hilen
                have hnsound : soundFor M ns :=
                  soundFor_derived M _ _ (hsound _ (getD_mem k i hilen))
                    (hsound _ (getD_mem k j hjlen)) (fun hx => hcell hx.symm) hsub
                have hnU : ns.cells ⊆ U := by
                  rw [hns, hde]
                  exact (Finset.sdiff_subset).trans (hcells b hbk)
                have hnne : ns.cells.Nonempty := by
                  rw [hns, hde, Finset.sdiff_nonempty]
                  exact fun hcon => hss.ne (Finset.Subset.antisymm hss.subset hcon)
                have hlt := absentCount_append_lt U M k ns hmem hnsound hnU hnne
                have hlen' : (k ++ [ns]).length = k.length + 1 := by
                  rw [List.length_append]; rfl
                refine ih m (by omega) (k ++ [ns]) i (j + 1) true ?_ ?_ ?_ ?_ ?_
                · intro s hs
                  rcases List.mem_append.mp hs with h1 | h1
                  · exact hsound s h1
                  · rw [List.mem_singleton] at h1; subst h1; exact hnsound
                · intro s hs
                  rcases List.mem_append.mp hs with h1 | h1
                  · exact hcells s h1
                  · rw [List.mem_singleton] at h1; subst h1; exact hnU
                · rw [hlen']; omega
                · rw [hlen']; omega
                · rw [hlen']
                  have e2 : absentCount U M (k ++ [ns]) * ((W + 2) * (W + 2)) +
                      (W + 2) * (W + 2) ≤
                      absentCount U M k * ((W + 2) * (W + 2)) := by
                    have e0 : absentCount U M (k ++ [ns]) + 1 ≤ absentCount U M k := hlt
                    calc absentCount U M (k ++ [ns]) * ((W + 2) * (W + 2)) +
                        (W + 2) * (W + 2)
                        = (absentCount U M (k ++ [ns]) + 1) * ((W + 2) * (W + 2)) := by ring
                      _ ≤ absentCount U M k * ((W + 2) * (W + 2)) :=
                          Nat.mul_le_mul_right _ e0
                  have e3 : ((k.length + 1) - i) * (W + 2) ≤ (W + 1) * (W + 2) :=
                    Nat.mul_le_mul_right _ (by omega)
                  have e4 : (W + 1) * (W + 2) + (W + 2) = (W + 2) * (W + 2) := by ring
                  omega
            · rw [if_neg hsub]
              exact ih m (by omega) k i (j + 1) ch hsound hcells hi hW (by omega)
        · rw [if_neg hjlen]
          refine ih m (by omega) k (i + 1) 0 ch hsound hcells (by omega) hW ?_
          have e2 : (k.length - i) * (W + 2) = (k.length - (i + 1)) * (W + 2) + (W + 2) := by
            have e0 : k.length - i = (k.length - (i + 1)) + 1 := by omega
            rw [e0]; ring
          omega
      · rw [if_neg hilen]
        exact ⟨(k, ch), rfl⟩

theorem known_safes_subset (s : Sentence) : s.known_safes ⊆ s.cells := by
  unfold Sentence.known_safes
  split_ifs
  · exact Finset.Subset.refl _
  · exact Finset.empty_subset _

theorem known_mines_subset (s : Sentence) : s.known_mines ⊆ s.cells := by
  unfold Sentence.known_mines
  split_ifs
  · exact Finset.Subset.refl _
  · exact Finset.empty_subset _

theorem mem_activeCells (k : List Sentence) (c : Cell) :
    c ∈ activeCells k ↔ ∃ s ∈ k, c ∈ s.cells := by
  unfold activeCells
  induction k with
  | nil => simp
  | cons a l ih =>
    simp only [List.foldr_cons, Finset.mem_union, List.mem_cons, ih]
    constructor
    · rintro (h | ⟨s, hs, hc⟩)
      · exact ⟨a, Or.inl rfl, h⟩
      · exact ⟨s, Or.inr hs, hc⟩
    · rintro ⟨s, (rfl | hs), hc⟩
      · exact Or.inl hc
      · exact Or.inr ⟨s, hs, hc⟩

theorem activeCells_subset (k : List Sentence) (U : Finset Cell)
    (h : ∀ s ∈ k, s.cells ⊆ U) : activeCells k ⊆ U := by
  intro c hc
  obtain ⟨s, hs, hcs⟩ := (mem_activeCells k c).mp hc
  exact h s hs hcs

theorem activeCells_append (k l : List Sentence) :
    activeCells (k ++ l) = activeCells k ∪ activeCells l := by
  ext c
  rw [Finset.mem_union, mem_activeCells, mem_activeCells, mem_activeCells]
  constructor
  · rintro ⟨s, hs, hc⟩
    rcases List.mem_append.mp hs with h | h
    · exact Or.inl ⟨s, h, hc⟩
    · exact Or.inr ⟨s, h, hc⟩
  · rintro (⟨s, hs, hc⟩ | ⟨s, hs, hc⟩)
    · exact ⟨s, List.mem_append_left _ hs, hc⟩
    · exact ⟨s, List.mem_append_right _ hs, hc⟩

/- Pruning empty-celled sentences changes neither the active cells nor
the absent count. -/
theorem activeCells_filter_ne (k : List Sentence) :
    activeCells (k.filter (fun s => s.cells ≠ ∅)) = activeCells k := by
  ext c
  rw [mem_activeCells, mem_activeCells]
  constructor
  · rintro ⟨s, hs, hc⟩
    exact ⟨s, (List.mem_filter.mp hs).1, hc⟩
  · rintro ⟨s, hs, hc⟩
    have hne : s.cells ≠ ∅ := fun hemp => Finset.not_mem_empty c (hemp ▸ hc)
    exact ⟨s, List.mem_filter.mpr ⟨hs, decide_eq_true hne⟩, hc⟩

theorem absentCount_filter_ne (U M : Finset Cell) (k : List Sentence) :
    absentCount U M (k.filter (fun s => s.cells ≠ ∅)) = absentCount U M k := by
  unfold absentCount
  congr 1
  apply Finset.filter_congr
  intro S _
  constructor
  · rintro ⟨hne, hnotin⟩
    refine ⟨hne, fun hmem => hnotin ?_⟩
    refine List.mem_filter.mpr ⟨hmem, decide_eq_true ?_⟩
    exact fun hemp => Finset.nonempty_iff_ne_empty.mp hne hemp
  · rintro ⟨hne, hnotin⟩
    exact ⟨hne, fun hmem => hnotin (List.mem_filter.mp hmem).1⟩

/- The knowledge list after a fold of AI-level safe markings. -/
theorem foldl_markSafe_knowledge : ∀ (l : List Cell) (ai : AI),
    (List.foldl AI.mark_safe ai l).knowledge =
      ai.knowledge.map (fun s => List.foldl Sentence.mark_safe s l) := by
  intro l
  induction l with
  | nil =>
    intro ai
    simp
  | cons c l ih =>
    intro ai
    rw [List.foldl_cons, ih, AI.mark_safe_knowledge, List.map_map]
    rfl

theorem foldl_markMine_knowledge : ∀ (l : List Cell) (ai : AI),
    (List.foldl AI.mark_mine ai l).knowledge =
      ai.knowledge.map (fun s => List.foldl Sentence.mark_mine s l) := by
  intro l
  induction l with
  | nil =>
    intro ai
    simp
  | cons c l ih =>
    intro ai
    rw [List.foldl_cons, ih, AI.mark_mine_knowledge, List.map_map]
    rfl

theorem foldl_markSafe_cells : ∀ (l : List Cell) (s : Sentence),
    (List.foldl Sentence.mark_safe s l).cells = s.cells \ l.toFinset := by
  intro l
  induction l with
  | nil =>
    intro s
    simp
  | cons c l ih =>
    intro s
    rw [List.foldl_cons, ih, Sentence.mark_safe_eq]
    ext x
    simp only [Finset.mem_sdiff, Finset.mem_erase, List.toFinset_cons, Finset.mem_insert,
      List.mem_toFinset]
    tauto

theorem foldl_markMine_cells : ∀ (l : List Cell) (s : Sentence),
    (List.foldl Sentence.mark_mine s l).cells = s.cells \ l.toFinset := by
  intro l
  induction l with
  | nil =>
    intro s
    simp
  | cons c l ih =>
    intro s
    rw [List.foldl_cons, ih, Sentence.mark_mine_eq]
    ext x
    simp only [Finset.mem_sdiff, Finset.mem_erase, List.toFinset_cons, Finset.mem_insert,
      List.mem_toFinset]
    tauto

/- Every sentence after markSafes is a sentence of the input with the
marked cells removed from its cell set. -/
theorem markSafes_cells (ai : AI) (cs : Finset Cell) :
    ∀ s' ∈ (ai.markSafes cs).knowledge, ∃ s ∈ ai.knowledge, s'.cells = s.cells \ cs := by
  unfold AI.markSafes
  have key : ∀ (m : Multiset Cell), (∀ x : Cell, x ∈ m ↔ x ∈ cs) →
      ∀ s' ∈ (Multiset.foldl AI.mark_safe ai m).knowledge,
        ∃ s ∈ ai.knowledge, s'.cells = s.cells \ cs := by
    intro m
    induction m using Quotient.inductionOn with
    | h l =>
      intro hm s' hs'
      have hs2 : s' ∈ (List.foldl AI.mark_safe ai l).knowledge := hs'
      rw [foldl_markSafe_knowledge, List.mem_map] at hs2
      obtain ⟨s, hsk, rfl⟩ := hs2
      refine ⟨s, hsk, ?_⟩
      rw [foldl_markSafe_cells]
      have hfin : l.toFinset = cs := by
        ext x
        rw [List.mem_toFinset, ← Multiset.mem_coe]
        exact hm x
      rw [hfin]
  exact key cs.val (fun x => Iff.rfl)

theorem markMines_cells (ai : AI) (cs : Finset Cell) :
    ∀ s' ∈ (ai.markMines cs).knowledge, ∃ s ∈ ai.knowledge, s'.cells = s.cells \ cs := by
  unfold AI.markMines
  have key : ∀ (m : Multiset Cell), (∀ x : Cell, x ∈ m ↔ x ∈ cs) →
      ∀ s' ∈ (Multiset.foldl AI.mark_mine ai m).knowledge,
        ∃ s ∈ ai.knowledge, s'.cells = s.cells \ cs := by
    intro m
    induction m using Quotient.inductionOn with
    | h l =>
      intro hm s' hs'
      have hs2 : s' ∈ (List.foldl AI.mark_mine ai l).knowledge := hs'
      rw [foldl_markMine_knowledge, List.mem_map] at hs2
      obtain ⟨s, hsk, rfl⟩ := hs2
      refine ⟨s, hsk, ?_⟩
      rw [foldl_markMine_cells]
      have hfin : l.toFinset = cs := by
        ext x
        rw [List.mem_toFinset, ← Multiset.mem_coe]
        exact hm x
      rw [hfin]
  exact key cs.val (fun x => Iff.rfl)

theorem sdiff_sdiff_union (s a b : Finset Cell) : (s \ a) \ b = s \ (a ∪ b) := by
  ext x
  simp only [Finset.mem_sdiff, Finset.mem_union]
  tauto

/- Every sentence surviving the marking and pruning prefix of a pass is
a pre-pass sentence with all newly marked cells removed. -/
theorem passInput_cases (ai : AI) :
    ∀ s' ∈ (ai.passInput).knowledge, s'.cells ≠ ∅ ∧ ∃ s ∈ ai.knowledge,
      s'.cells = s.cells \ (ai.computeSafes ∪ ai.computeMines) := by
  intro s' hs'
  unfold AI.passInput at hs'
  dsimp only at hs'
  rw [List.mem_filter] at hs'
  obtain ⟨hs2, hnz⟩ := hs'
  refine ⟨of_decide_eq_true hnz, ?_⟩
  by_cases hcm : 0 < ai.computeMines.card
  · rw [if_pos hcm] at hs2
    obtain ⟨t, ht, htc⟩ := markMines_cells _ _ s' hs2
    by_cases hcs : 0 < ai.computeSafes.card
    · rw [if_pos hcs] at ht
      obtain ⟨s, hsk, hsc⟩ := markSafes_cells _ _ t ht
      refine ⟨s, hsk, ?_⟩
      rw [htc, hsc, sdiff_sdiff_union]
    · rw [if_neg hcs] at ht
      have hemp : ai.computeSafes = ∅ := Finset.card_eq_zero.mp (by omega)
      refine ⟨t, ht, ?_⟩
      rw [htc, hemp, Finset.empty_union]
  · rw [if_neg hcm] at hs2
    have hemp : ai.computeMines = ∅ := Finset.card_eq_zero.mp (by omega)
    by_cases hcs : 0 < ai.computeSafes.card
    · rw [if_pos hcs] at hs2
      obtain ⟨s, hsk, hsc⟩ := markSafes_cells _ _ s' hs2
      refine ⟨s, hsk, ?_⟩
      rw [hsc, hemp, Finset.union_empty]
    · rw [if_neg hcs] at hs2
      have hemp2 : ai.computeSafes = ∅ := Finset.card_eq_zero.mp (by omega)
      refine ⟨s', hs2, ?_⟩
      rw [hemp, hemp2, Finset.union_empty, Finset.sdiff_empty]

/- When no cell is marked, the pass prefix is a pure prune. -/
theorem passInput_no_marks (ai : AI) (h1 : ¬ 0 < ai.computeSafes.card)
    (h2 : ¬ 0 < ai.computeMines.card) :
    (ai.passInput).knowledge = ai.knowledge.filter (fun s => s.cells ≠ ∅) := by
  unfold AI.passInput
  dsimp only
  rw [if_neg h2, if_neg h1]

theorem SoundState_passInput (M : Finset Cell) (ai : AI) (hs : AI.SoundState M ai) :
    AI.SoundState M ai.passInput := by
  have hsafesOK : ∀ c ∈ ai.computeSafes, c ∉ M := by
    intro c hc'
    obtain ⟨s, hsk, hcs⟩ := (mem_computeSafes ai c).mp hc'
    exact known_safes_not_mem M s c (hs.1 s hsk) hcs
  have hminesOK : ∀ c ∈ ai.computeMines, c ∈ M := by
    intro c hc'
    obtain ⟨s, hsk, hcs⟩ := (mem_computeMines ai c).mp hc'
    exact known_mines_mem M s c (hs.1 s hsk) hcs
  have h1 : AI.SoundState M
      (if 0 < ai.computeSafes.card then ai.markSafes ai.computeSafes else ai) := by
    split_ifs with hc
    · exact SoundState_markSafes M ai _ hsafesOK hs
    · exact hs
  have h2 : AI.SoundState M
      (if 0 < ai.computeMines.card then
        (if 0 < ai.computeSafes.card then ai.markSafes ai.computeSafes
          else ai).markMines ai.computeMines
      else if 0 < ai.computeSafes.card then ai.markSafes ai.computeSafes else ai) := by
    by_cases hc : 0 < ai.computeMines.card
    · rw [if_pos hc]
      exact SoundState_markMines M _ _ hminesOK h1
    · rw [if_neg hc]
      exact h1
  unfold AI.passInput
  dsimp only
  exact ⟨fun t ht => h2.1 t (List.mem_filter.mp ht).1, h2.2.1, h2.2.2⟩

theorem computeSafes_subset_active (ai : AI) :
    ai.computeSafes ⊆ activeCells ai.knowledge := by
  intro c hc
  obtain ⟨s, hsk, hcs⟩ := (mem_computeSafes ai c).mp hc
  exact (mem_activeCells _ c).mpr ⟨s, hsk, known_safes_subset s hcs⟩

theorem computeMines_subset_active (ai : AI) :
    ai.computeMines ⊆ activeCells ai.knowledge := by
  intro c hc
  obtain ⟨s, hsk, hcs⟩ := (mem_computeMines ai c).mp hc
  exact (mem_activeCells _ c).mpr ⟨s, hsk, known_mines_subset s hcs⟩

/- Every pass on a sound state succeeds for all large enough fuel, and
a pass that reports change shrinks the active cell set or, keeping it
fixed, strictly shrinks the absent count over it. -/
theorem runPass_term (M : Finset Cell) (ai : AI) (hs : AI.SoundState M ai) :
    ∃ (pf : ℕ) (r : AI × Bool),
      (∀ pf', pf ≤ pf' → ai.runPass pf' = some r) ∧
      AI.SoundState M r.1 ∧
      activeCells r.1.knowledge ⊆ activeCells ai.knowledge ∧
      (r.2 = true →
        (activeCells r.1.knowledge).card < (activeCells ai.knowledge).card ∨
        (activeCells r.1.knowledge = activeCells ai.knowledge ∧
          absentCount (activeCells ai.knowledge) M r.1.knowledge <
            absentCount (activeCells ai.knowledge) M ai.knowledge)) := by
  have hsPi := SoundState_passInput M ai hs
  set KPi := (ai.passInput).knowledge with hKPi
  set Api := activeCells KPi with hApi
  set W := KPi.length + absentCount Api M KPi with hWdef
  set F := absentCount Api M KPi * ((W + 2) * (W + 2)) + (KPi.length - 0) * (W + 2) +
    (KPi.length - 0) + 1 with hFdef
  have hcellsPi : ∀ s ∈ KPi, s.cells ⊆ Api := by
    intro s hsk c hc
    exact (mem_activeCells _ c).mpr ⟨s, hsk, hc⟩
  obtain ⟨⟨L, ch'⟩, hpl⟩ := pairLoop_term M Api W F KPi 0 0 ai.passChanged
    hsPi.1 hcellsPi (Nat.zero_le _) (le_of_eq rfl) (by rw [hFdef]; omega)
  have hApi_strong : Api ⊆
      activeCells ai.knowledge \ (ai.computeSafes ∪ ai.computeMines) := by
    intro c hc
    obtain ⟨s', hs', hcs⟩ := (mem_activeCells _ c).mp hc
    obtain ⟨_, s, hsk, hcells⟩ := passInput_cases ai s' hs'
    rw [hcells] at hcs
    rw [Finset.mem_sdiff] at hcs ⊢
    exact ⟨(mem_activeCells _ c).mpr ⟨s, hsk, hcs.1⟩, hcs.2⟩
  have hApi_weak : Api ⊆ activeCells ai.knowledge :=
    hApi_strong.trans Finset.sdiff_subset
  have hLsound := pairLoop_sound M F KPi 0 0 ai.passChanged L ch' hpl hsPi.1
  have hLcells := pairLoop_cellsU Api F KPi 0 0 ai.passChanged L ch' hpl hcellsPi
  have hLactive : activeCells L ⊆ Api := activeCells_subset L Api hLcells
  refine ⟨F, ({ai.passInput with knowledge := L}, ch'), ?_, ?_, ?_, ?_⟩
  · intro pf' hle
    unfold AI.runPass
    rw [← hKPi, pairLoop_mono_le F pf' KPi 0 0 ai.passChanged (L, ch') hle hpl]
  · exact ⟨hLsound, hsPi.2.1, hsPi.2.2⟩
  · exact hLactive.trans hApi_weak
  · intro hch'
    by_cases hmark : 0 < ai.computeSafes.card ∨ 0 < ai.computeMines.card
    · left
      apply Finset.card_lt_card
      rw [Finset.ssubset_iff_of_subset (hLactive.trans hApi_weak)]
      have hune : (ai.computeSafes ∪ ai.computeMines).Nonempty := by
        rcases hmark with hm | hm
        · obtain ⟨w, hw⟩ := Finset.card_pos.mp hm
          exact ⟨w, Finset.mem_union_left _ hw⟩
        · obtain ⟨w, hw⟩ := Finset.card_pos.mp hm
          exact ⟨w, Finset.mem_union_right _ hw⟩
      obtain ⟨w, hw⟩ := hune
      refine ⟨w, ?_, ?_⟩
      · rcases Finset.mem_union.mp hw with h1 | h1
        · exact computeSafes_subset_active ai h1
        · exact computeMines_subset_active ai h1
      · intro hwL
        have := hApi_strong (hLactive hwL)
        rw [Finset.mem_sdiff] at this
        exact this.2 hw
    · right
      push_neg at hmark
      have hm1 : ¬ 0 < ai.computeSafes.card := by omega
      have hm2 : ¬ 0 < ai.computeMines.card := by omega
      have hchg : ai.passChanged = false := by
        unfold AI.passChanged
        rw [decide_eq_false hm1, decide_eq_false hm2]
        rfl
      have hpia : KPi = ai.knowledge.filter (fun s => s.cells ≠ ∅) := by
        rw [hKPi]
        exact passInput_no_marks ai hm1 hm2
      have hActEq : Api = activeCells ai.knowledge := by
        rw [hApi, hpia]
        exact activeCells_filter_ne ai.knowledge
      have habs := pairLoop_absent Api M F KPi 0 0 ai.passChanged L ch' hpl
        hsPi.1 hcellsPi
      rcases habs.2 hch' with hfalse | hlt
      · rw [hchg] at hfalse
        exact absurd hfalse (by decide)
      · obtain ⟨news, hL, _, _, _⟩ :=
          pairLoop_goodExt F KPi 0 0 ai.passChanged L ch' KPi hpl (goodExt_refl KPi)
        have hLeq : activeCells L = activeCells ai.knowledge := by
          apply Finset.Subset.antisymm (hLactive.trans hApi_weak)
          rw [hL, activeCells_append]
          exact (le_of_eq hActEq.symm).trans Finset.subset_union_left
        refine ⟨hLeq, ?_⟩
        rw [← hActEq]
        calc absentCount Api M L < absentCount Api M KPi := hlt
          _ = absentCount Api M ai.knowledge := by
              rw [hpia]
              exact absentCount_filter_ne Api M ai.knowledge

/- On sound states the whole while loop terminates: enough passes and
enough pair-loop fuel reach a pass that reports no change. -/
theorem loopKnowledge_term (M : Finset Cell) (P : ℕ) :
    ∀ (n : ℕ) (ai : AI), AI.SoundState M ai →
    (activeCells ai.knowledge).powerset.card ≤ P →
    (activeCells ai.knowledge).card * (P + 1) +
      absentCount (activeCells ai.knowledge) M ai.knowledge < n →
    ∃ (pf : ℕ) (ai' : AI), ∀ pf', pf ≤ pf' → AI.loopKnowledge n pf' ai = some ai' := by
  intro n
  induction n using Nat.strong_induction_on with
  | _ n ih =>
    intro ai hs hP hμ
    cases n with
    | zero => omega
    | succ m =>
      obtain ⟨pf0, ⟨ai1, ch⟩, hrun, hs1, hsub, hdec⟩ := runPass_term M ai hs
      cases ch with
      | false =>
        refine ⟨pf0, ai1, ?_⟩
        intro pf' hle
        rw [AI.loopKnowledge, hrun pf' hle]
      | true =>
        have hP1 : (activeCells ai1.knowledge).powerset.card ≤ P :=
          le_trans (Finset.card_le_card (Finset.powerset_mono.mpr hsub)) hP
        have habs1 : absentCount (activeCells ai1.knowledge) M ai1.knowledge ≤ P :=
          le_trans (absentCount_le _ _ _) hP1
        have hμ1 : (activeCells ai1.knowledge).card * (P + 1) +
            absentCount (activeCells ai1.knowledge) M ai1.knowledge < m := by
          rcases hdec rfl with hcard | ⟨heq, habs⟩
          · have h1 : (activeCells ai1.knowledge).card + 1 ≤
                (activeCells ai.knowledge).card := hcard
            have h2 : ((activeCells ai1.knowledge).card + 1) * (P + 1) ≤
                (activeCells ai.knowledge).card * (P + 1) := Nat.mul_le_mul_right _ h1
            have h3 : ((activeCells ai1.knowledge).card + 1) * (P + 1) =
                (activeCells ai1.knowledge).card * (P + 1) + (P + 1) := by ring
            omega
          · have heq' : activeCells ai1.knowledge = activeCells ai.knowledge := heq
            have habs' : absentCount (activeCells ai.knowledge) M ai1.knowledge <
                absentCount (activeCells ai.knowledge) M ai.knowledge := habs
            rw [heq']
            omega
        obtain ⟨pf1, ai', hrec⟩ := ih m (by omega) ai1 hs1 hP1 hμ1
        refine ⟨max pf0 pf1, ai', ?_⟩
        intro pf' hle
        rw [AI.loopKnowledge, hrun pf' (le_trans (le_max_left _ _) hle)]
        exact hrec pf' (le_trans (le_max_right _ _) hle)

/-- C7 amended: the inference fixed-point loop of add_knowledge
terminates whenever the knowledge base is sound for some mine set M
(each sentence counts its true M-mines, safes avoid M, mines lie in M)
and the observation is truthful (cell not a mine, count the true number
of M-mines among the in-bounds neighbours): some finite pass and step
budgets make add_knowledge return, exiting on the first pass that
produces no new marks and no new sentences. -/
theorem C7_amended (M : Finset Cell) (ai : AI) (cell : Cell) (count : ℤ)
    (hsound : AI.SoundState M ai) (hcell : cell ∉ M)
    (hcount : count = ((ai.neighborCells cell ∩ M).card : ℤ)) :
    ∃ (n pf : ℕ) (ai' : AI), AI.add_knowledge n pf ai cell count = some ai' := by
  have h1 := add_knowledge_append_sound M ai cell count hsound hcell hcount
  set ai1 := ai.add_knowledge_append cell count with hai1
  set A := activeCells ai1.knowledge with hA
  set P := A.powerset.card with hP
  set N := A.card * (P + 1) + absentCount A M ai1.knowledge + 1 with hN
  obtain ⟨pf, ai', hloop⟩ :=
    loopKnowledge_term M P N ai1 h1 (le_refl _) (by rw [hN, hA]; omega)
  exact ⟨N, pf, ai', hloop pf (le_refl pf)⟩

/-- Witness for C7 amended: the fresh 1x3 board with mine set {(0,2)}
and the truthful observation ((0,0), 0) admits a terminating run. -/
theorem C7_amended_witness :
    ∃ (n pf : ℕ) (ai' : AI),
      AI.add_knowledge n pf ⟨1, 3, ∅, ∅, ∅, []⟩ ((0:ℤ), (0:ℤ)) 0 = some ai' :=
  C7_amended {((0:ℤ), (2:ℤ))} _ _ _
    ⟨fun s hs => absurd hs (List.not_mem_nil s), by decide, by decide⟩
    (by decide) (by decide)
